import Mathlib

/-!
Verification development for the Secure Vault file manager backend
(`backend/file_operations.py`, `backend/permissions.py`, `backend/database.py`).

Python strings are modelled as `List Char` (`Str`); machine-level details that
the claims do not touch (timestamps, MIME sniffing from bytes) are either
dropped or replaced by fixed values, as noted at each definition.
-/

/-- Python strings, modelled as lists of characters. -/
abbrev Str := List Char

/-- Coerce a Lean string literal to the `Str` model. -/
def toStr (s : String) : Str := s.toList

/-- Error taxonomy raised by the backend (HTTPException status plus ValueError
from `PermissionLevel.validate` and database integrity errors). -/
inductive Err where
  | invalidPath
  | notFound
  | forbidden
  | alreadyExists
  | tooLarge
  | invalidLevel
  | badRequest
  | constraintErr
  | ioErr
  deriving Repr, DecidableEq

/-- Python `str.split("/")`: cut a string at every slash; never returns `[]`. -/
def splitSlash : Str → List Str
  | [] => [[]]
  | c :: t =>
    let r := splitSlash t
    if c = '/' then [] :: r
    else
      match r with
      | h :: rest => (c :: h) :: rest
      | [] => [[c]]

/-- Python `"/".join(comps)`. -/
def joinSlash : List Str → Str
  | [] => []
  | [c] => c
  | c :: t => c ++ '/' :: joinSlash t

/-- Python `".." in s`: does the string contain two adjacent dots? -/
def cDD : Str → Bool
  | [] => false
  | [_] => false
  | a :: b :: t => (a = '.' && b = '.') || cDD (b :: t)

/-- Python `s.startswith("/")`. -/
def startsWithSlash : Str → Bool
  | [] => false
  | c :: _ => c == '/'

/-- Python `s.startswith("//")`. -/
def startsWith2 : Str → Bool
  | [] => false
  | c :: t => c == '/' && startsWithSlash t

/-- Python `s.startswith("///")`. -/
def startsWith3 : Str → Bool
  | [] => false
  | c :: t => c == '/' && startsWith2 t

/-- Leading-slash count as computed by `posixpath.normpath`: 2 when the path
starts with exactly two slashes but not three (POSIX special case), else 1
when it starts with a slash, else 0. -/
def initialSlashes (p : Str) : Nat :=
  if startsWithSlash p then
    if startsWith2 p && !startsWith3 p then 2 else 1
  else 0

/-- One step of `posixpath.normpath`'s component loop:
skip empty and `.` components; append a component unless it is a poppable
`..`; pop on a `..` that cancels against a previous real component. -/
def pstep (k : Nat) (acc : List Str) (comp : Str) : List Str :=
  if comp = [] ∨ comp = ['.'] then acc
  else if comp ≠ ['.', '.'] ∨ (k = 0 ∧ acc = []) ∨ acc.getLast? = some ['.', '.'] then
    acc ++ [comp]
  else if acc ≠ [] then acc.dropLast
  else acc

/-- The component loop of `posixpath.normpath`. -/
def processComps (k : Nat) (comps : List Str) : List Str :=
  comps.foldl (pstep k) []

/-- `posixpath.normpath` for the POSIX separator, over `Str`. -/
def normpath (p : Str) : Str :=
  if p = [] then ['.']
  else
    let k := initialSlashes p
    let nc := processComps k (splitSlash p)
    let o := List.replicate k '/' ++ joinSlash nc
    if o = [] then ['.'] else o

/-- Force a leading slash, as the first two lines of
`FileManager._normalize_path` do. -/
def forceSlash (p : Str) : Str :=
  if startsWithSlash p then p else '/' :: p

/-- `FileManager._normalize_path`: force a leading slash, run
`os.path.normpath`, reject results containing `..` (substring test, as in the
Python `in` operator) or not starting with a slash. -/
def normalize_path (p : Str) : Except Err Str :=
  let n := normpath (forceSlash p)
  if cDD n ∨ ¬ startsWithSlash n then .error .invalidPath else .ok n

/-- Claim-side predicate: the path has a literal `..` parent-reference
segment. -/
def dotdotSeg (s : Str) : Bool :=
  (splitSlash s).contains ['.', '.']

-- Basic facts about splitSlash / joinSlash -------------------------------

def cleanComps (cs : List Str) : Prop :=
  ∀ c ∈ cs, c ≠ [] ∧ '/' ∉ c

def goodComp (c : Str) : Prop := c ≠ [] ∧ '/' ∉ c ∧ c ≠ ['.']

/-- Normal form of `_normalize_path` outputs: one or two leading slashes
followed by a slash-joined list of good, dot-dot-free components. -/
def isNF (n : Str) : Prop :=
  ∃ k cs, (k = 1 ∨ k = 2) ∧ n = List.replicate k '/' ++ joinSlash cs ∧
    ∀ c ∈ cs, goodComp c ∧ cDD c = false

structure UserRec where
  id : Nat
  username : Str
  deriving Repr, DecidableEq

/-- A row of the `files` table (timestamps are not modelled; no claim
mentions them). -/
structure FileRec where
  id : Nat
  ownerId : Nat
  filename : Str
  path : Str
  parentPath : Str
  isFolder : Bool
  size : Nat
  mimeType : Option Str
  deriving Repr, DecidableEq

/-- A row of the `file_permissions` table (a sharing Grant). -/
structure Grant where
  id : Nat
  fileId : Nat
  sharedByUserId : Nat
  sharedWithUserId : Option Nat
  sharedWithGroup : Option Str
  permissionLevel : Str
  deriving Repr, DecidableEq

/-- The physical filesystem under the storage root, without symlinks:
a set of directories and a set of regular files with byte sizes, both keyed
by their absolute path as a segment list. -/
structure Fsys where
  dirs : List (List Str)
  files : List (List Str × Nat)
  deriving Repr, DecidableEq

/-- Combined state of the metadata catalog and the physical filesystem. -/
structure State where
  users : List UserRec
  files : List FileRec
  perms : List Grant
  fsys : Fsys
  nextFileId : Nat
  nextPermId : Nat
  deriving Repr, DecidableEq

-- ==========================================================================
-- Permission model (permissions.py, class PermissionLevel)
-- ==========================================================================

/-- ASCII lowercase of one character, as Python `str.lower` acts on the
permission-level strings in play. -/
def lowerChar (c : Char) : Char := c.toLower

/-- Python `s.lower()` on `Str`. -/
def strLower (s : Str) : Str := s.map lowerChar

namespace PermissionLevel

/-- `PermissionLevel.READ`. -/
def READ : Str := toStr "read"

/-- `PermissionLevel.WRITE`. -/
def WRITE : Str := toStr "write"

/-- `PermissionLevel.FULL`. -/
def FULL : Str := toStr "full"

/-- `PermissionLevel.validate`: lowercase, then reject anything outside
the three known levels with a ValueError. -/
def validate (level : Str) : Except Err Str :=
  let l := strLower level
  if l = READ ∨ l = WRITE ∨ l = FULL then .ok l else .error .invalidLevel

/-- `PermissionLevel.rank`: `{'read': 1, 'write': 2, 'full': 3}.get(level, 0)`. -/
def rank (level : Str) : Nat :=
  if level = READ then 1 else if level = WRITE then 2 else if level = FULL then 3 else 0

end PermissionLevel

/-- Rank at least 3 pins the level to exactly `full`. -/
def lookupFile (st : State) (fid : Nat) : Option FileRec :=
  st.files.find? (fun f => f.id = fid)

/-- Look up a `users` row by id. -/
def userById (st : State) (uid : Nat) : Option UserRec :=
  st.users.find? (fun u => u.id = uid)

/-- Look up a `users` row by username
(`SELECT id FROM users WHERE username = %s`). -/
def userByName (st : State) (uname : Str) : Option UserRec :=
  st.users.find? (fun u => u.username = uname)

/-- The SQL sort key of `ORDER BY CASE permission_level ... END DESC`:
the CASE yields NULL on an unrecognized level, and under `DESC` PostgreSQL
places NULLs first, so NULL is encoded as 4, above every real rank. -/
def sqlDescKey (l : Str) : Nat :=
  if l = PermissionLevel.FULL then 3
  else if l = PermissionLevel.WRITE then 2
  else if l = PermissionLevel.READ then 1
  else 4

/-- `ORDER BY <key> DESC LIMIT 1` with `fetchone`: the first row of maximal
key; rows tied on the key are returned in relation order (the SQL order on
ties is unspecified; list order is the deterministic stand-in). -/
def orderDescLimit1 (rows : List Grant) : Option Grant :=
  rows.foldl
    (fun acc g =>
      match acc with
      | none => some g
      | some m => if sqlDescKey g.permissionLevel > sqlDescKey m.permissionLevel then some g else acc)
    none

/-- Rows of `file_permissions` matching
`file_id = %s AND shared_with_user_id = %s`. -/
def directRows (st : State) (fid uid : Nat) : List Grant :=
  st.perms.filter (fun g => g.fileId = fid ∧ g.sharedWithUserId = some uid)

/-- Rows of `file_permissions` matching
`file_id = %s AND shared_with_group = ANY(%s)`. -/
def groupRows (st : State) (fid : Nat) (groups : List Str) : List Grant :=
  st.perms.filter (fun g => g.fileId == fid &&
    match g.sharedWithGroup with
    | some s => groups.contains s
    | none => false)

/-- `PermissionManager.get_effective_permission`: owner check, then the
direct-grant query, then (only when the group list is non-empty) the
group-grant query, else no access. -/
def get_effective_permission (st : State) (uid fid : Nat) (groups : List Str) :
    Option Str :=
  let rest :=
    match orderDescLimit1 (directRows st fid uid) with
    | some g => some g.permissionLevel
    | none =>
      if groups ≠ [] then
        match orderDescLimit1 (groupRows st fid groups) with
        | some g => some g.permissionLevel
        | none => none
      else none
  match lookupFile st fid with
  | some f => if f.ownerId = uid then some PermissionLevel.FULL else rest
  | none => rest

/-- `PermissionManager.check_permission`: validate the required level (a
ValueError propagates), compute the effective permission, and compare
ranks. A falsy effective permission (None or the empty string) yields
`False`; the empty string also has rank 0, so the two readings agree. -/
def check_permission (st : State) (uid fid : Nat) (required : Str)
    (groups : List Str) : Except Err Bool :=
  match PermissionLevel.validate required with
  | .error e => .error e
  | .ok req =>
    match get_effective_permission st uid fid groups with
    | none => .ok false
    | some eff => .ok (PermissionLevel.rank eff ≥ PermissionLevel.rank req)

/-- `PermissionManager.share_file`. Validation and authorization run before
any catalog write: validate the level, require exactly one of
username/group, require the file to exist, and require the actor to be the
owner or to hold a direct user grant whose level is exactly `full` (the
query only looks at `shared_with_user_id`; group grants are not consulted).
Then upsert the grant for the exact target. -/
def share_file (st : State) (fid sharedBy : Nat) (withUser withGroup : Option Str)
    (level : Str) : State × Except Err Nat :=
  match PermissionLevel.validate level with
  | .error e => (st, .error e)
  | .ok lvl =>
    if withUser = none ∧ withGroup = none then (st, .error .badRequest)
    else if withUser ≠ none ∧ withGroup ≠ none then (st, .error .badRequest)
    else
      match lookupFile st fid with
      | none => (st, .error .notFound)
      | some f =>
        let authorized : Bool :=
          if f.ownerId == sharedBy then true
          else
            match st.perms.find? (fun g =>
                g.fileId == fid && g.sharedWithUserId == some sharedBy) with
            | some g => g.permissionLevel == PermissionLevel.FULL
            | none => false
        if !authorized then (st, .error .forbidden)
        else
          match withUser with
          | some uname =>
            match userByName st uname with
            | none => (st, .error .notFound)
            | some u =>
              match st.perms.find? (fun g =>
                  g.fileId == fid && g.sharedWithUserId == some u.id) with
              | some ex =>
                let newPerms := st.perms.map (fun g =>
                  if g.id = ex.id then { g with permissionLevel := lvl } else g)
                ({ st with perms := newPerms }, .ok ex.id)
              | none =>
                let ng : Grant := ⟨st.nextPermId, fid, sharedBy, some u.id, none, lvl⟩
                ({ st with perms := st.perms ++ [ng], nextPermId := st.nextPermId + 1 },
                  .ok ng.id)
          | none =>
            match withGroup with
            | some gname =>
              match st.perms.find? (fun g =>
                  g.fileId == fid && g.sharedWithGroup == some gname) with
              | some ex =>
                let newPerms := st.perms.map (fun g =>
                  if g.id = ex.id then { g with permissionLevel := lvl } else g)
                ({ st with perms := newPerms }, .ok ex.id)
              | none =>
                let ng : Grant := ⟨st.nextPermId, fid, sharedBy, none, some gname, lvl⟩
                ({ st with perms := st.perms ++ [ng], nextPermId := st.nextPermId + 1 },
                  .ok ng.id)
            | none => (st, .error .badRequest)

-- ==========================================================================
-- Physical filesystem primitives and the path resolver (file_operations.py)
-- ==========================================================================

/-- Segments of the configured storage root `/data/secure-vault`. -/
def storageRootSegs : List Str := [toStr "data", toStr "secure-vault"]

/-- The owner's per-user subdirectory `<storage_root>/<username>`. -/
def userRootSegs (uname : Str) : List Str := storageRootSegs ++ [uname]

/-- All nonempty prefixes of a path, shortest first (the ancestor chain
created by `mkdir(parents=True)`). -/
def prefixesNE (p : List Str) : List (List Str) :=
  (List.range p.length).map (fun i => p.take (i + 1))

/-- `mkdir(parents=True, exist_ok=True)`: add the directory and every
missing ancestor. -/
def ensureDirChain (fs : Fsys) (p : List Str) : Fsys :=
  let newDirs := (prefixesNE p).foldl (fun d q => if q ∈ d then d else d ++ [q]) fs.dirs
  { fs with dirs := newDirs }

/-- `FileManager._user_root`: ensure `<storage_root>/<username>` exists. -/
def ensureUserRoot (uname : Str) (fs : Fsys) : Fsys :=
  ensureDirChain fs (userRootSegs uname)

/-- Nonempty segments of a normalized logical path
(`normalized.lstrip("/")` split on slashes, as consumed by `Path./`). -/
def npSegs (np : Str) : List Str :=
  (splitSlash np).filter (fun c => !c.isEmpty)

/-- The physical location of a logical path inside an owner's subdirectory. -/
def physPath (uname : Str) (np : Str) : List Str :=
  userRootSegs uname ++ npSegs np

/-- `FileManager._get_absolute_path` in the symlink-free operational model:
normalize, ensure the user root (a filesystem write), compose, and verify
containment via `resolve().relative_to(user_root.resolve())`, which in the
absence of symlinks is the segment-prefix test. (The symlink-general version
is `get_absolute_path_resolved` below.) -/
def get_absolute_path (fs : Fsys) (uname : Str) (rel : Str) :
    Fsys × Except Err (List Str) :=
  match normalize_path rel with
  | .error e => (fs, .error e)
  | .ok np =>
    let fs1 := ensureUserRoot uname fs
    let ap := physPath uname np
    if (userRootSegs uname).isPrefixOf ap then (fs1, .ok ap)
    else (fs1, .error .invalidPath)

/-- `FileManager._get_absolute_path` in the symlink-general model.
`resolveFS` is the ambient filesystem's `Path.resolve`: it maps any absolute
path to its fully resolved form, following every symlink; it is left entirely
arbitrary, so every symlink configuration (including ones engineered to point
outside the vault) is covered. The code composes the owner's subdirectory
with the normalized relative path and then verifies
`abs_path.resolve().relative_to(user_root.resolve())`, whose success is
exactly the segmentwise prefix test on the two resolved paths; on failure
the ValueError propagates as an error. -/
def get_absolute_path_resolved (resolveFS : List Str → List Str) (uname : Str)
    (rel : Str) : Except Err (List Str) :=
  match normalize_path rel with
  | .error e => .error e
  | .ok np =>
    let ap := physPath uname np
    if (resolveFS (userRootSegs uname)).isPrefixOf (resolveFS ap) then .ok ap
    else .error .invalidPath

/-- `Path.exists`: a directory or a regular file sits at this path. -/
def fsExists (fs : Fsys) (p : List Str) : Bool :=
  fs.dirs.contains p || fs.files.any (fun e => e.1 == p)

/-- `Path.is_dir`. -/
def fsIsDir (fs : Fsys) (p : List Str) : Bool :=
  fs.dirs.contains p

/-- Write a regular file of the given size (open mode `wb` truncates any
previous content). -/
def fsWrite (fs : Fsys) (p : List Str) (size : Nat) : Fsys :=
  { fs with files := fs.files.filter (fun e => !(e.1 == p)) ++ [(p, size)] }

/-- `shutil.rmtree` on a directory, `Path.unlink` on a file. -/
def fsRemoveRec (fs : Fsys) (p : List Str) : Fsys :=
  if fsIsDir fs p then
    { dirs := fs.dirs.filter (fun d => !(p.isPrefixOf d)),
      files := fs.files.filter (fun e => !(p.isPrefixOf e.1)) }
  else
    { fs with files := fs.files.filter (fun e => !(e.1 == p)) }

/-- `Path.rename` / `shutil.move`: remap the object and everything below
it to the new location. -/
def fsRename (fs : Fsys) (old new : List Str) : Fsys :=
  { dirs := fs.dirs.map (fun d =>
      if old.isPrefixOf d then new ++ d.drop old.length else d),
    files := fs.files.map (fun e =>
      if old.isPrefixOf e.1 then (new ++ e.1.drop old.length, e.2) else e) }

/-- `shutil.copytree`: duplicate the subtree under a fresh destination. -/
def fsCopyRec (fs : Fsys) (src dest : List Str) : Fsys :=
  { dirs := fs.dirs ++ (fs.dirs.filter (fun d => src.isPrefixOf d)).map
      (fun d => dest ++ d.drop src.length),
    files := fs.files ++ (fs.files.filter (fun e => src.isPrefixOf e.1)).map
      (fun e => (dest ++ e.1.drop src.length, e.2)) }

/-- `settings.max_file_size`: 500 MB. -/
def maxFileSize : Nat := 500 * 1024 * 1024

/-- `mimetypes.guess_type` with the `application/octet-stream` fallback;
the claims never inspect the MIME value, so the external library is
abstracted to its fallback. -/
def guessMime (filename : Str) : Str := toStr "application/octet-stream"

/-- Python `s.rstrip("/")`. -/
def rstripSlash (s : Str) : Str :=
  (s.reverse.dropWhile (fun c => c == '/')).reverse

/-- Python `s.count("/")`. -/
def countSlash (s : Str) : Nat := s.count '/'

/-- Python `s.rsplit("/", 1)[0]`. -/
def rsplitParent (s : Str) : Str :=
  if s.contains '/' then ((s.reverse.dropWhile (fun c => !(c == '/'))).drop 1).reverse
  else s

/-- Parent derivation used by `create_folder` and `rename_file`:
`"/" if path.count("/") == 1 else path.rsplit("/", 1)[0]`. -/
def parentOf (path : Str) : Str :=
  if countSlash path = 1 then toStr "/" else rsplitParent path

-- ==========================================================================
-- Catalog mutations (INSERT / UPDATE / DELETE on the `files` table)
-- ==========================================================================

/-- Modelled from the spec: the DDL of the operative `files` table is not in
the repository sources (`database.py` creates a legacy table whose column
names do not match the INSERTs issued by `file_operations.py`, and the test
suite relies on `ON CONFLICT (path, owner_id)`). Per §3 of the spec a File
Record's logical path is unique within its owner's namespace, so the table
carries `UNIQUE (owner_id, path)` and a violating INSERT fails with an
integrity error; an unspecified `size` defaults to 0 as folders have size 0. -/
def catalogInsertFile (st : State) (ownerId : Nat) (filename path parentPath : Str)
    (isFolder : Bool) (size : Nat) (mime : Option Str) : State × Except Err FileRec :=
  if st.files.any (fun f => f.ownerId == ownerId && f.path == path) then
    (st, .error .constraintErr)
  else
    let r : FileRec := ⟨st.nextFileId, ownerId, filename, path, parentPath, isFolder, size, mime⟩
    ({ st with files := st.files ++ [r], nextFileId := st.nextFileId + 1 }, .ok r)

/-- `UPDATE files SET filename=%s, path=%s ... WHERE id=%s RETURNING *`,
under the modelled `UNIQUE (owner_id, path)` constraint. -/
def catalogUpdateRename (st : State) (fid : Nat) (newName newPath : Str) :
    State × Except Err FileRec :=
  match lookupFile st fid with
  | none => (st, .error .notFound)
  | some f =>
    if st.files.any (fun g => !(g.id == fid) && g.ownerId == f.ownerId && g.path == newPath) then
      (st, .error .constraintErr)
    else
      let nf := { f with filename := newName, path := newPath }
      let newFiles := st.files.map (fun g => if g.id = fid then nf else g)
      ({ st with files := newFiles }, .ok nf)

/-- `UPDATE files SET path=%s, parent_path=%s ... WHERE id=%s RETURNING *`,
under the modelled `UNIQUE (owner_id, path)` constraint. -/
def catalogUpdateMove (st : State) (fid : Nat) (newPath newParent : Str) :
    State × Except Err FileRec :=
  match lookupFile st fid with
  | none => (st, .error .notFound)
  | some f =>
    if st.files.any (fun g => !(g.id == fid) && g.ownerId == f.ownerId && g.path == newPath) then
      (st, .error .constraintErr)
    else
      let nf := { f with path := newPath, parentPath := newParent }
      let newFiles := st.files.map (fun g => if g.id = fid then nf else g)
      ({ st with files := newFiles }, .ok nf)

/-- `DELETE FROM files WHERE id=%s`. The removal of every Grant whose
`file_id` references the deleted record is Modelled from the spec: the
operative `file_permissions` DDL is absent from the sources, and §3/§4.4 of
the spec state that deleting a File Record cascades to all Grants
referencing it (the legacy `shares` table in `database.py` carries the same
`ON DELETE CASCADE`). -/
def catalogDeleteFileCascade (st : State) (fid : Nat) : State :=
  { st with files := st.files.filter (fun f => !(f.id == fid)),
            perms := st.perms.filter (fun g => !(g.fileId == fid)) }

-- ==========================================================================
-- Record resolution used by rename / move / copy / delete
-- ==========================================================================

/-- `FileManager._get_file_id_and_owner`: first row of the files-users join
restricted to the given path and owner username. -/
def file_id_and_owner (st : State) (path : Str) (ownerUname : Str) :
    Option (FileRec × UserRec) :=
  st.files.findSome? (fun f =>
    if f.path == path then
      match userById st f.ownerId with
      | some u => if u.username == ownerUname then some (f, u) else none
      | none => none
    else none)

/-- `FileManager._get_file_by_path_any_owner`: first row of the files-users
join restricted to the given path, any owner (`fetchone` returns an
unspecified row when several owners collide; relation order is the
deterministic stand-in). -/
def file_by_path_any_owner (st : State) (path : Str) : Option (FileRec × UserRec) :=
  st.files.findSome? (fun f =>
    if f.path == path then
      match userById st f.ownerId with
      | some u => some (f, u)
      | none => none
    else none)

/-- The owned-first-then-any-owner fallback used by rename, move, copy and
delete. -/
def resolveRecord (st : State) (path : Str) (uname : Str) : Option (FileRec × UserRec) :=
  match file_id_and_owner st path uname with
  | some r => some r
  | none => file_by_path_any_owner st path

/-- `FileManager._check_permission`: propagate a validation error, raise 403
on a denied check. -/
def checkGate (st : State) (uid fid : Nat) (required : Str) (groups : List Str) :
    Except Err Unit :=
  match check_permission st uid fid required groups with
  | .error e => .error e
  | .ok true => .ok ()
  | .ok false => .error .forbidden

-- ==========================================================================
-- File operations (file_operations.py, class FileManager)
-- ==========================================================================

/-- `FileManager.create_folder`. -/
def create_folder (st : State) (rawPath : Str) (ownerId : Nat) (uname : Str) :
    State × Except Err FileRec :=
  match normalize_path rawPath with
  | .error e => (st, .error e)
  | .ok path =>
    match get_absolute_path st.fsys uname path with
    | (fs1, .error e) => ({ st with fsys := fs1 }, .error e)
    | (fs1, .ok ap) =>
      if fsExists fs1 ap then ({ st with fsys := fs1 }, .error .alreadyExists)
      else
        let fs2 := ensureDirChain fs1 ap
        catalogInsertFile { st with fsys := fs2 } ownerId (ap.getLastD [])
          path (parentOf path) true 0 none

/-- `FileManager.upload_file`; the upload stream is abstracted to its
declared filename and byte size. -/
def upload_file (st : State) (filename : Str) (size : Nat) (rawParent : Str)
    (ownerId : Nat) (uname : Str) : State × Except Err FileRec :=
  match normalize_path rawParent with
  | .error e => (st, .error e)
  | .ok parent =>
    let fpath := rstripSlash parent ++ '/' :: filename
    match get_absolute_path st.fsys uname fpath with
    | (fs1, .error e) => ({ st with fsys := fs1 }, .error e)
    | (fs1, .ok ap) =>
      if size > maxFileSize then ({ st with fsys := fs1 }, .error .tooLarge)
      else
        let fs2 := ensureDirChain fs1 ap.dropLast
        let fs3 := fsWrite fs2 ap size
        catalogInsertFile { st with fsys := fs3 } ownerId filename fpath parent
          false size (some (guessMime filename))

/-- A row of the listing returned by `list_directory` (the columns the
claims mention). -/
structure ListingRow where
  fileId : Nat
  filename : Str
  isFolder : Bool
  ownerUsername : Str
  sharedPermission : Option Str
  deriving Repr, DecidableEq

/-- Folders sort before files (`is_folder DESC` on booleans). -/
def folderKey (r : ListingRow) : Nat := if r.isFolder then 0 else 1

/-- Lexicographic comparison of filenames by character code
(`filename ASC`). -/
def strLeB : Str → Str → Bool
  | [], _ => true
  | _ :: _, [] => false
  | a :: as, b :: bs => if a < b then true else if a = b then strLeB as bs else false

/-- The `ORDER BY f.is_folder DESC, f.filename ASC` order. -/
def rowLe (a b : ListingRow) : Bool :=
  if folderKey a = folderKey b then strLeB a.filename b.filename
  else decide (folderKey a < folderKey b)

/-- The `ORDER BY f.id` order of the shared-files query (forced by
`DISTINCT ON (f.id)`; the later keys only order rows within one id group,
which collapses to a single row). -/
def rowIdLe (a b : ListingRow) : Bool := decide (a.fileId ≤ b.fileId)

/-- The grant condition of the shared queries:
`fp.shared_with_user_id = %s OR (fp.shared_with_group = ANY(%s) AND %s)`
where the last parameter is `len(user_groups) > 0`. -/
def grantMatches (uid : Nat) (groups : List Str) (g : Grant) : Bool :=
  g.sharedWithUserId == some uid ||
    (match g.sharedWithGroup with
     | some s => groups.contains s && !groups.isEmpty
     | none => false)

/-- First `file_permissions` row matching a file and the requester.
`DISTINCT ON (f.id)` keeps exactly one join row per file; which of several
tied rows survives is unspecified in SQL, and relation order is the
deterministic stand-in. -/
def firstMatchingGrant (st : State) (fid uid : Nat) (groups : List Str) : Option Grant :=
  st.perms.find? (fun g => g.fileId == fid && grantMatches uid groups g)

/-- One candidate row of the owned-files query: the files-users join row
for a file under the listed path owned by the requester. -/
def ownedFn (st : State) (path : Str) (uid : Nat) (f : FileRec) : Option ListingRow :=
  if f.parentPath == path && f.ownerId == uid then
    match userById st f.ownerId with
    | some u => some (ListingRow.mk f.id f.filename f.isFolder u.username none)
    | none => none
  else none

/-- The owned-files query of `list_directory`:
owner's rows under the parent path, folders first then filename order,
`NULL as shared_permission`. -/
def ownedRows (st : State) (path : Str) (uid : Nat) : List ListingRow :=
  List.insertionSort (fun a b => rowLe a b = true) (st.files.filterMap (ownedFn st path uid))

/-- One candidate row of the shared-files query: the join row for a file
under the listed path owned by someone else, kept when the requester has a
matching grant; `DISTINCT ON (f.id)` keeps one such row per file, the
surviving grant row being the first match. -/
def sharedFn (st : State) (path : Str) (uid : Nat) (groups : List Str)
    (f : FileRec) : Option ListingRow :=
  if f.parentPath == path && !(f.ownerId == uid) then
    match userById st f.ownerId, firstMatchingGrant st f.id uid groups with
    | some u, some g =>
      some (ListingRow.mk f.id f.filename f.isFolder u.username (some g.permissionLevel))
    | _, _ => none
  else none

/-- The shared-files query of `list_directory`: rows owned by others under
the parent path for which the requester has a matching grant, one row per
file id, ordered by file id, annotated with the surviving join row's
permission level. -/
def sharedRows (st : State) (path : Str) (uid : Nat) (groups : List Str) :
    List ListingRow :=
  List.insertionSort (fun a b => rowIdLe a b = true)
    (st.files.filterMap (sharedFn st path uid groups))

/-- `FileManager.list_directory`. -/
def list_directory (st : State) (rawPath : Str) (uid : Nat) (uname : Str)
    (groups : List Str) : State × Except Err (List ListingRow) :=
  match normalize_path rawPath with
  | .error e => (st, .error e)
  | .ok path =>
    match get_absolute_path st.fsys uname path with
    | (fs1, .error e) => ({ st with fsys := fs1 }, .error e)
    | (fs1, .ok ap) =>
      let isOwn := fsExists fs1 ap
      let hasSharedFolder := st.files.any (fun f =>
        f.path == path && f.isFolder && (userById st f.ownerId).isSome &&
          st.perms.any (fun g => g.fileId == f.id && grantMatches uid groups g))
      if !isOwn && !hasSharedFolder then ({ st with fsys := fs1 }, .error .notFound)
      else ({ st with fsys := fs1 }, .ok (ownedRows st path uid ++ sharedRows st path uid groups))

/-- `FileManager.rename_file`. -/
def rename_file (st : State) (rawOld newName : Str) (uid : Nat) (uname : Str)
    (groups : List Str) : State × Except Err FileRec :=
  match normalize_path rawOld with
  | .error e => (st, .error e)
  | .ok oldPath =>
    match resolveRecord st oldPath uname with
    | none => (st, .error .notFound)
    | some (f, owner) =>
      match checkGate st uid f.id PermissionLevel.WRITE groups with
      | .error e => (st, .error e)
      | .ok _ =>
        match get_absolute_path st.fsys owner.username oldPath with
        | (fs1, .error e) => ({ st with fsys := fs1 }, .error e)
        | (fs1, .ok absOld) =>
          if !(fsExists fs1 absOld) then ({ st with fsys := fs1 }, .error .notFound)
          else
            let newPath := parentOf oldPath ++ '/' :: newName
            match get_absolute_path fs1 owner.username newPath with
            | (fs2, .error e) => ({ st with fsys := fs2 }, .error e)
            | (fs2, .ok absNew) =>
              let fs3 := fsRename fs2 absOld absNew
              catalogUpdateRename { st with fsys := fs3 } f.id newName newPath

/-- `FileManager.delete_file`. -/
def delete_file (st : State) (rawPath : Str) (uid : Nat) (uname : Str)
    (groups : List Str) : State × Except Err Bool :=
  match normalize_path rawPath with
  | .error e => (st, .error e)
  | .ok path =>
    match resolveRecord st path uname with
    | none => (st, .error .notFound)
    | some (f, owner) =>
      match checkGate st uid f.id PermissionLevel.FULL groups with
      | .error e => (st, .error e)
      | .ok _ =>
        match get_absolute_path st.fsys owner.username path with
        | (fs1, .error e) => ({ st with fsys := fs1 }, .error e)
        | (fs1, .ok ap) =>
          let fs2 := if fsExists fs1 ap then fsRemoveRec fs1 ap else fs1
          (catalogDeleteFileCascade { st with fsys := fs2 } f.id, .ok true)

/-- `FileManager.move_file`. -/
def move_file (st : State) (rawSrc rawDestParent : Str) (uid : Nat) (uname : Str)
    (groups : List Str) : State × Except Err FileRec :=
  match normalize_path rawSrc with
  | .error e => (st, .error e)
  | .ok src =>
    match normalize_path rawDestParent with
    | .error e => (st, .error e)
    | .ok destParent =>
      match resolveRecord st src uname with
      | none => (st, .error .notFound)
      | some (f, owner) =>
        match checkGate st uid f.id PermissionLevel.WRITE groups with
        | .error e => (st, .error e)
        | .ok _ =>
          match get_absolute_path st.fsys owner.username src with
          | (fs1, .error e) => ({ st with fsys := fs1 }, .error e)
          | (fs1, .ok srcAbs) =>
            let destPath := destParent ++ '/' :: srcAbs.getLastD []
            match get_absolute_path fs1 owner.username destPath with
            | (fs2, .error e) => ({ st with fsys := fs2 }, .error e)
            | (fs2, .ok destAbs) =>
              let fs3 := ensureDirChain fs2 destAbs.dropLast
              if !(fsExists fs3 srcAbs) then ({ st with fsys := fs3 }, .error .ioErr)
              else
                let fs4 := fsRename fs3 srcAbs destAbs
                catalogUpdateMove { st with fsys := fs4 } f.id destPath destParent

/-- `FileManager.copy_file`: the destination lands in the requesting user's
own namespace and the new record is owned by the requester. -/
def copy_file (st : State) (rawSrc rawDestParent : Str) (uid : Nat) (uname : Str)
    (groups : List Str) : State × Except Err FileRec :=
  match normalize_path rawSrc with
  | .error e => (st, .error e)
  | .ok src =>
    match normalize_path rawDestParent with
    | .error e => (st, .error e)
    | .ok destParent =>
      match resolveRecord st src uname with
      | none => (st, .error .notFound)
      | some (f, owner) =>
        match checkGate st uid f.id PermissionLevel.READ groups with
        | .error e => (st, .error e)
        | .ok _ =>
          match get_absolute_path st.fsys owner.username src with
          | (fs1, .error e) => ({ st with fsys := fs1 }, .error e)
          | (fs1, .ok srcAbs) =>
            let name := srcAbs.getLastD []
            let destPath := destParent ++ '/' :: name
            match get_absolute_path fs1 uname destPath with
            | (fs2, .error e) => ({ st with fsys := fs2 }, .error e)
            | (fs2, .ok destAbs) =>
              if fsIsDir fs2 srcAbs then
                if fsExists fs2 destAbs then ({ st with fsys := fs2 }, .error .ioErr)
                else
                  catalogInsertFile { st with fsys := fsCopyRec fs2 srcAbs destAbs }
                    uid name destPath destParent true 0 none
              else
                match fs2.files.find? (fun e => e.1 == srcAbs) with
                | none => ({ st with fsys := fs2 }, .error .ioErr)
                | some e =>
                  catalogInsertFile { st with fsys := fsWrite fs2 destAbs e.2 }
                    uid name destPath destParent false e.2 (some (guessMime name))

-- ==========================================================================
-- Supporting lemmas for the claims
-- ==========================================================================

def validLevel (l : Str) : Prop :=
  l = PermissionLevel.READ ∨ l = PermissionLevel.WRITE ∨ l = PermissionLevel.FULL

/-- Every grant row of the state carries a validated level (all grant rows
are written through `share_file`, which validates first). -/
def grantsWF (st : State) : Prop :=
  ∀ g ∈ st.perms, validLevel g.permissionLevel

def W2st : State :=
  { users := [⟨1, toStr "alice"⟩, ⟨2, toStr "bob"⟩]
    files := [⟨10, 1, toStr "a.txt", toStr "/a.txt", toStr "/", false, 5, none⟩]
    perms := [⟨1, 10, 1, some 2, none, toStr "read"⟩]
    fsys := { dirs := [], files := [] }
    nextFileId := 11
    nextPermId := 2 }

/-- Witness for C2: the owner tier and the direct tier at concrete inputs. -/
def W10st : State :=
  { users := [⟨9, toStr "carol"⟩, ⟨5, toStr "dave"⟩]
    files := [⟨5, 9, toStr "x", toStr "/x", toStr "/", false, 1, none⟩]
    perms := [⟨1, 5, 9, some 5, none, toStr "admin"⟩]
    fsys := { dirs := [], files := [] }
    nextFileId := 6
    nextPermId := 2 }

/-- Witness for C10: an out-of-range level ranks 0 and cannot pass any
validated requirement. -/
def W3st : State :=
  { users := [⟨1, toStr "alice"⟩, ⟨2, toStr "bob"⟩]
    files := [⟨7, 1, toStr "f", toStr "/f", toStr "/", false, 3, none⟩]
    perms := [⟨1, 7, 1, some 2, none, toStr "write"⟩]
    fsys := { dirs := [[toStr "data"], storageRootSegs], files := [] }
    nextFileId := 8
    nextPermId := 2 }

/-- Witness for C3: bob's delete of alice's `/f` with only a `write` grant
fails 403 and leaves the state untouched. -/
def holdsFullGrant (st : State) (fid uid : Nat) (groups : List Str) : Bool :=
  st.perms.any (fun g => g.fileId == fid &&
    g.permissionLevel == PermissionLevel.FULL &&
    (g.sharedWithUserId == some uid ||
      (match g.sharedWithGroup with
       | some s => groups.contains s
       | none => false)))

/-- The row `share_file`'s authorization query actually fetches: the first
`file_permissions` row with `file_id = %s AND shared_with_user_id = %s`. -/
def firstDirectGrant (st : State) (fid uid : Nat) : Option Grant :=
  st.perms.find? (fun g => g.fileId == fid && g.sharedWithUserId == some uid)

/-- What the code's share gate accepts from a non-owner: the fetched direct
grant row exists and its level is exactly `full`. -/
def hasDirectFullB (st : State) (fid uid : Nat) : Bool :=
  match firstDirectGrant st fid uid with
  | some g => g.permissionLevel == PermissionLevel.FULL
  | none => false

/-- Concrete state refuting C4 as stated: alice (1) owns file 10; bob (2)
belongs to group `eng`, which holds a FULL grant on the file; carol (3)
exists as a share target. -/
def C4st : State :=
  { users := [⟨1, toStr "alice"⟩, ⟨2, toStr "bob"⟩, ⟨3, toStr "carol"⟩]
    files := [⟨10, 1, toStr "doc", toStr "/doc", toStr "/", false, 4, none⟩]
    perms := [⟨1, 10, 1, none, some (toStr "eng"), toStr "full"⟩]
    fsys := { dirs := [], files := [] }
    nextFileId := 11
    nextPermId := 2 }

/-- C4 counterexample: bob holds a FULL grant on file 10 (via his group
`eng`), yet his share attempt fails `Forbidden` — the code's authorization
query only consults direct user grants, so the claim's "succeeds if the
acting principal holds a FULL grant" is false. -/
def C4wst : State :=
  { users := [⟨1, toStr "alice"⟩, ⟨2, toStr "bob"⟩, ⟨3, toStr "carol"⟩]
    files := [⟨10, 1, toStr "doc", toStr "/doc", toStr "/", false, 4, none⟩]
    perms := [⟨1, 10, 1, some 2, none, toStr "full"⟩]
    fsys := { dirs := [], files := [] }
    nextFileId := 11
    nextPermId := 2 }

/-- Witness for the amended C4: bob, holding a direct FULL grant, shares
alice's file with carol at `read`; the grant row for carol is created. -/
def W9st : State :=
  { users := [⟨5, toStr "eve"⟩]
    files := []
    perms := []
    fsys := { dirs := [[toStr "data"], storageRootSegs], files := [] }
    nextFileId := 1
    nextPermId := 1 }

/-- Witness for C9: creating `/proj` in eve's empty vault inserts one folder
record with size 0 and parent `/`. -/
def C5st : State :=
  { users := [⟨1, toStr "alice"⟩, ⟨2, toStr "bob"⟩]
    files := [⟨20, 1, toStr "s", toStr "/s", toStr "/", true, 0, none⟩,
              ⟨21, 1, toStr "a.txt", toStr "/s/a.txt", toStr "/s", false, 9, none⟩,
              ⟨22, 1, toStr "zdir", toStr "/s/zdir", toStr "/s", true, 0, none⟩]
    perms := [⟨1, 20, 1, some 2, none, toStr "read"⟩,
              ⟨2, 21, 1, some 2, none, toStr "read"⟩,
              ⟨3, 21, 1, none, some (toStr "g"), toStr "write"⟩,
              ⟨4, 22, 1, some 2, none, toStr "read"⟩]
    fsys := { dirs := [[toStr "data"], storageRootSegs], files := [] }
    nextFileId := 23
    nextPermId := 5 }

/-- C5 counterexample: bob's listing of `/s` returns the shared file
`a.txt` (a non-folder) before the shared folder `zdir` — refuting
"folders before files, then lexicographic by filename" — and annotates
`a.txt` with `read` although a matching group grant at the higher rank
`write` applies, refuting "annotated with the highest-rank level". -/
def idsBounded (st : State) : Prop := ∀ f ∈ st.files, f.id < st.nextFileId

/-- Record ids are pairwise distinct (primary key). -/
def idsDistinct (st : State) : Prop := st.files.Pairwise (fun f g => f.id ≠ g.id)

/-- The claimed invariant: no two File Records share (owner, logical path). -/
def ownerPathUnique (st : State) : Prop :=
  st.files.Pairwise (fun f g => ¬(f.ownerId = g.ownerId ∧ f.path = g.path))

/-- Inductive well-formedness of the catalog, preserved by every operation
and implying the claimed invariant. -/
def StateWF (st : State) : Prop := idsBounded st ∧ idsDistinct st ∧ ownerPathUnique st

/-- One step of the File Operation Orchestrator: any call of the seven
catalog-mutating operations, with any arguments, from any requester. -/
inductive Step : State → State → Prop where
  | createFolder (st : State) (rawPath : Str) (ownerId : Nat) (uname : Str) :
      Step st (create_folder st rawPath ownerId uname).1
  | upload (st : State) (filename : Str) (size : Nat) (rawParent : Str)
      (ownerId : Nat) (uname : Str) :
      Step st (upload_file st filename size rawParent ownerId uname).1
  | copy (st : State) (rawSrc rawDestParent : Str) (uid : Nat) (uname : Str)
      (groups : List Str) :
      Step st (copy_file st rawSrc rawDestParent uid uname groups).1
  | rename (st : State) (rawOld newName : Str) (uid : Nat) (uname : Str)
      (groups : List Str) :
      Step st (rename_file st rawOld newName uid uname groups).1
  | move (st : State) (rawSrc rawDestParent : Str) (uid : Nat) (uname : Str)
      (groups : List Str) :
      Step st (move_file st rawSrc rawDestParent uid uname groups).1
  | delete (st : State) (rawPath : Str) (uid : Nat) (uname : Str)
      (groups : List Str) :
      Step st (delete_file st rawPath uid uname groups).1
  | share (st : State) (fid sharedBy : Nat) (withUser withGroup : Option Str)
      (level : Str) :
      Step st (share_file st fid sharedBy withUser withGroup level).1

def W6st : State :=
  { users := [⟨1, toStr "alice"⟩, ⟨2, toStr "bob"⟩]
    files := []
    perms := []
    fsys := { dirs := [[toStr "data"], storageRootSegs], files := [] }
    nextFileId := 1
    nextPermId := 1 }

/-- C6: catalog well-formedness (bounded distinct ids and per-owner path
uniqueness) is preserved by every operation of the orchestrator and yields
the claimed invariant — no reachable state holds two records with the same
(owner, path) — while two different owners may indeed each hold a record at
the same logical path, exhibited by a two-step run. -/
def ensureList (us : List Str) (fs : Fsys) : Fsys :=
  us.foldl (fun a u => ensureUserRoot u a) fs

/-- The metadata catalog (and both id counters) are untouched. -/
def CatalogUnchanged (st st2 : State) : Prop :=
  st2.users = st.users ∧ st2.files = st.files ∧ st2.perms = st.perms ∧
  st2.nextFileId = st.nextFileId ∧ st2.nextPermId = st.nextPermId

/-- The frame that actually holds before the filesystem-mutation step: the
catalog is untouched and the filesystem differs at most by the creation of
per-user root directory chains (`_user_root`'s `mkdir(parents=True,
exist_ok=True)`). -/
def EarlyFrame (st st2 : State) : Prop :=
  CatalogUnchanged st st2 ∧ ∃ us : List Str, st2.fsys = ensureList us st.fsys

/-- Outcomes exempt from the early-failure frame: successes, integrity
errors raised by the catalog write, and filesystem faults at the mutation
step. -/
def NotEarlyOutcome {α : Type} (r : Except Err α) : Prop :=
  (∃ v, r = .ok v) ∨ r = .error .constraintErr ∨ r = .error .ioErr

/-- The failure kinds the claim quantifies over (all raised before the
operation's filesystem mutation step). -/
def earlyErrSet (e : Err) : Prop :=
  e = .invalidPath ∨ e = .notFound ∨ e = .forbidden ∨ e = .alreadyExists ∨
    e = .tooLarge ∨ e = .invalidLevel ∨ e = .badRequest

def C7st : State := ⟨[], [], [], ⟨[], []⟩, 1, 1⟩

/-- C7 (counterexample to the literal claim): an early failure is not always
side-effect free on the physical filesystem. `upload_file` rejects an
oversized upload with 413 Too Large, yet the state after the call differs
from the state before it: `_get_absolute_path` has already run `_user_root`,
whose `mkdir(parents=True, exist_ok=True)` created the caller's per-user
root directory chain. -/

-- ==========================================================================
-- Theorems
-- ==========================================================================

theorem splitSlash_ne_nil (s : Str) : splitSlash s ≠ [] := by
  induction s with
  | nil => simp [splitSlash]
  | cons c t ih =>
    simp only [splitSlash]
    split
    · simp
    · cases h : splitSlash t with
      | nil => exact absurd h ih
      | cons a b => simp [h]

theorem mem_splitSlash_no_slash (s : Str) : ∀ c ∈ splitSlash s, '/' ∉ c := by
  induction s with
  | nil => intro c hc; simp [splitSlash] at hc; simp [hc]
  | cons a t ih =>
    intro c hc
    simp only [splitSlash] at hc
    by_cases ha : a = '/'
    · simp [ha] at hc
      rcases hc with hc | hc
      · simp [hc]
      · exact ih c hc
    · simp [ha] at hc
      cases h : splitSlash t with
      | nil => exact absurd h (splitSlash_ne_nil t)
      | cons x rest =>
        rw [h] at hc
        simp at hc
        rcases hc with hc | hc
        · subst hc
          intro hmem
          rcases List.mem_cons.mp hmem with h1 | h1
          · exact ha h1.symm
          · exact ih x (h ▸ List.mem_cons_self x rest) h1
        · exact ih c (h ▸ List.mem_cons_of_mem x hc)

theorem splitSlash_append_no_slash (c : Str) (s : Str) (hc : '/' ∉ c) :
    splitSlash (c ++ s) = (splitSlash s).modifyHead (c ++ ·) := by
  induction c with
  | nil =>
    simp
    cases h : splitSlash s with
    | nil => exact absurd h (splitSlash_ne_nil s)
    | cons a b => simp [List.modifyHead]
  | cons x t ih =>
    have hx : x ≠ '/' := fun h => hc (h ▸ List.mem_cons_self x t)
    have ht : '/' ∉ t := fun h => hc (List.mem_cons_of_mem x h)
    simp only [List.cons_append, splitSlash, List.append_eq]
    rw [if_neg hx, ih ht]
    cases h : splitSlash s with
    | nil => exact absurd h (splitSlash_ne_nil s)
    | cons a b => simp [List.modifyHead]

theorem splitSlash_single (c : Str) (hc : '/' ∉ c) : splitSlash c = [c] := by
  have := splitSlash_append_no_slash c [] hc
  simpa [splitSlash, List.modifyHead] using this

/-- Components that can appear in a slash-joined path body. -/
theorem splitSlash_joinSlash (cs : List Str) (hne : cs ≠ []) (hc : cleanComps cs) :
    splitSlash (joinSlash cs) = cs := by
  induction cs with
  | nil => exact absurd rfl hne
  | cons c t ih =>
    cases t with
    | nil =>
      have := hc c (List.mem_cons_self c _)
      simpa [joinSlash] using splitSlash_single c this.2
    | cons d u =>
      have hcc := hc c (List.mem_cons_self c _)
      have hct : cleanComps (d :: u) := fun x hx => hc x (List.mem_cons_of_mem c hx)
      have ihr := ih (by simp) hct
      simp only [joinSlash]
      rw [splitSlash_append_no_slash c ('/' :: joinSlash (d :: u)) hcc.2]
      simp only [splitSlash, if_true]
      rw [ihr]
      simp [List.modifyHead]

theorem splitSlash_replicate_append (k : Nat) (s : Str) :
    splitSlash (List.replicate k '/' ++ s) = List.replicate k [] ++ splitSlash s := by
  induction k with
  | zero => simp
  | succ n ih => simp [List.replicate_succ, splitSlash, ih]

-- Facts about the `".." in s` substring test ------------------------------

theorem cDD_cons_ge (x : Char) (t : Str) (h : cDD t = true) : cDD (x :: t) = true := by
  cases t with
  | nil => simp [cDD] at h
  | cons y u => simp only [cDD] at h ⊢; simp [h]

theorem cDD_append_left (a b : Str) (h : cDD a = true) : cDD (a ++ b) = true := by
  induction a with
  | nil => simp [cDD] at h
  | cons x t ih =>
    cases t with
    | nil => simp [cDD] at h
    | cons y u =>
      simp only [cDD, Bool.or_eq_true] at h
      rcases h with h | h
      · simp [cDD, h]
      · have := ih h
        simp only [List.cons_append] at this ⊢
        exact cDD_cons_ge x _ this

theorem cDD_append_right (a b : Str) (h : cDD b = true) : cDD (a ++ b) = true := by
  induction a with
  | nil => simpa using h
  | cons x t ih => exact cDD_cons_ge x _ ih

theorem not_cDD_of_mem_joinSlash (cs : List Str) (h : cDD (joinSlash cs) = false) :
    ∀ c ∈ cs, cDD c = false := by
  induction cs with
  | nil => intro c hc; simp at hc
  | cons c t ih =>
    intro d hd
    rcases List.mem_cons.mp hd with hd | hd
    · subst hd
      cases t with
      | nil => simpa [joinSlash] using h
      | cons e u =>
        by_contra hcd
        have : cDD (joinSlash (d :: e :: u)) = true := by
          simpa [joinSlash] using
            cDD_append_left d ('/' :: joinSlash (e :: u)) (by simpa using hcd)
        rw [h] at this; exact Bool.false_ne_true this
    · cases t with
      | nil => simp at hd
      | cons e u =>
        apply ih _ d hd
        by_contra hcd
        have h2 : cDD (joinSlash (e :: u)) = true := by
          simpa using hcd
        have : cDD (joinSlash (c :: e :: u)) = true := by
          simp only [joinSlash]
          exact cDD_append_right c _ (cDD_cons_ge '/' _ h2)
        rw [h] at this; exact Bool.false_ne_true this

theorem splitSlash_head_char (s : Str) (d : Char) (h' : Str) (rest : List Str)
    (h : splitSlash s = (d :: h') :: rest) : ∃ t, s = d :: t := by
  cases s with
  | nil => simp [splitSlash] at h
  | cons x t =>
    simp only [splitSlash] at h
    by_cases hx : x = '/'
    · rw [if_pos hx] at h; simp at h
    · rw [if_neg hx] at h
      cases hs : splitSlash t with
      | nil => exact absurd hs (splitSlash_ne_nil t)
      | cons a b =>
        rw [hs] at h
        simp at h
        exact ⟨t, by rw [h.1.1]⟩

theorem cDD_of_dotdot_mem_splitSlash (s : Str)
    (h : ['.', '.'] ∈ splitSlash s) : cDD s = true := by
  induction s with
  | nil => simp [splitSlash] at h
  | cons x t ih =>
    simp only [splitSlash] at h
    by_cases hx : x = '/'
    · rw [if_pos hx] at h
      rcases List.mem_cons.mp h with h1 | h1
      · simp at h1
      · exact cDD_cons_ge x t (ih h1)
    · rw [if_neg hx] at h
      cases hs : splitSlash t with
      | nil => exact absurd hs (splitSlash_ne_nil t)
      | cons a b =>
        rw [hs] at h
        rcases List.mem_cons.mp h with h1 | h1
        · have hx2 : x = '.' ∧ a = ['.'] := by
            have := h1.symm
            simp at this
            exact ⟨this.1, this.2⟩
          obtain ⟨t', ht'⟩ := splitSlash_head_char t '.' [] b (by rw [hs, hx2.2])
          subst ht'
          simp [cDD, hx2.1]
        · exact cDD_cons_ge x t (ih (hs ▸ List.mem_cons_of_mem a h1))

-- The component loop --------------------------------------------------------

theorem processComps_skip_empties (k : Nat) (m : Nat) (cs : List Str) :
    processComps k (List.replicate m [] ++ cs) = processComps k cs := by
  induction m with
  | zero => simp
  | succ n ih =>
    simp only [List.replicate_succ, List.cons_append, processComps, List.foldl_cons]
    have : pstep k [] [] = [] := by simp [pstep]
    rw [this]
    exact ih

theorem foldl_pstep_appends (k : Nat) (cs : List Str)
    (h : ∀ c ∈ cs, c ≠ [] ∧ c ≠ ['.'] ∧ c ≠ ['.', '.']) :
    ∀ acc, cs.foldl (pstep k) acc = acc ++ cs := by
  induction cs with
  | nil => intro acc; simp
  | cons c t ih =>
    intro acc
    have hc := h c (List.mem_cons_self c _)
    have step : pstep k acc c = acc ++ [c] := by
      simp only [pstep]
      rw [if_neg (by simp [hc.1, hc.2.1]), if_pos (Or.inl hc.2.2)]
    simp only [List.foldl_cons, step]
    rw [ih (fun x hx => h x (List.mem_cons_of_mem c hx)) (acc ++ [c])]
    simp

/-- Invariant of the component loop: every accumulated component is a
nonempty, slash-free, non-dot component. -/
theorem foldl_pstep_good (k : Nat) (cs : List Str) (hcs : ∀ c ∈ cs, '/' ∉ c) :
    ∀ acc, (∀ c ∈ acc, goodComp c) → ∀ c ∈ cs.foldl (pstep k) acc, goodComp c := by
  induction cs with
  | nil => intro acc hacc; simpa using hacc
  | cons c t ih =>
    intro acc hacc
    simp only [List.foldl_cons]
    apply ih (fun x hx => hcs x (List.mem_cons_of_mem c hx))
    intro d hd
    simp only [pstep] at hd
    split at hd
    · exact hacc d hd
    · split at hd
      · rcases List.mem_append.mp hd with h1 | h1
        · exact hacc d h1
        · have hdc : d = c := by simpa using h1
          subst hdc
          rename_i hne _
          push_neg at hne
          exact ⟨hne.1, hcs d (List.mem_cons_self d _), hne.2⟩
      · split at hd
        · exact hacc d (List.dropLast_subset _ hd)
        · exact hacc d hd

theorem joinSlash_head_ne_slash (cs : List Str) (h : ∀ c ∈ cs, goodComp c) :
    joinSlash cs = [] ∨ ∃ x t, joinSlash cs = x :: t ∧ x ≠ '/' := by
  cases cs with
  | nil => exact Or.inl rfl
  | cons c t =>
    right
    have hg := h c (List.mem_cons_self c _)
    cases hcn : c with
    | nil => exact absurd hcn hg.1
    | cons x u =>
      have hx : x ≠ '/' := by
        intro hxeq
        exact hg.2.1 (hcn ▸ hxeq ▸ List.mem_cons_self x u)
      cases t with
      | nil => exact ⟨x, u, by simp [joinSlash, hcn], hx⟩
      | cons d v => exact ⟨x, u ++ '/' :: joinSlash (d :: v), by simp [joinSlash, hcn], hx⟩

theorem initialSlashes_of_NF (k : Nat) (cs : List Str) (hk : k = 1 ∨ k = 2)
    (hcs : ∀ c ∈ cs, goodComp c) :
    initialSlashes (List.replicate k '/' ++ joinSlash cs) = k := by
  rcases joinSlash_head_ne_slash cs hcs with hj | ⟨x, t, hj, hx⟩
  · rcases hk with hk | hk <;> subst hk <;> rw [hj] <;> decide
  · rcases hk with hk | hk <;> subst hk <;> rw [hj] <;>
      simp [initialSlashes, startsWithSlash, startsWith2, startsWith3,
        List.replicate, hx]

theorem normpath_of_NF (n : Str) (h : isNF n) (hdd : cDD n = false) :
    normpath n = n := by
  obtain ⟨k, cs, hk, hn, hcs⟩ := h
  have hkpos : 0 < k := by rcases hk with hk | hk <;> simp [hk]
  have hne : n ≠ [] := by
    rw [hn]
    rcases hk with hk | hk <;> simp [hk, List.replicate]
  have hslashes : initialSlashes n = k := by
    rw [hn]; exact initialSlashes_of_NF k cs hk (fun c hc => (hcs c hc).1)
  have hclean : cleanComps cs := fun c hc => ⟨(hcs c hc).1.1, (hcs c hc).1.2.1⟩
  have hsplit : splitSlash n = List.replicate k [] ++ splitSlash (joinSlash cs) := by
    rw [hn]; exact splitSlash_replicate_append k _
  have hproc : processComps k (splitSlash n) = cs := by
    rw [hsplit]
    cases cs with
    | nil =>
      have hjs : splitSlash (joinSlash ([] : List Str)) = List.replicate 1 [] := by
        simp [joinSlash, splitSlash, List.replicate]
      rw [hjs, ← List.replicate_add]
      have := processComps_skip_empties k (k + 1) []
      simpa [processComps] using this
    | cons c t =>
      rw [splitSlash_joinSlash (c :: t) (by simp) hclean,
        processComps_skip_empties k k (c :: t)]
      apply foldl_pstep_appends
      intro d hd
      have hg := hcs d hd
      refine ⟨hg.1.1, hg.1.2.2, ?_⟩
      intro hdd2
      rw [hdd2] at hg
      simp [cDD] at hg
  simp only [normpath, if_neg hne, hslashes, hproc, ← hn]

theorem normalize_path_shape (p n : Str) (h : normalize_path p = .ok n) :
    isNF n ∧ cDD n = false ∧ startsWithSlash n = true := by
  simp only [normalize_path] at h
  split at h
  · exact absurd h (by simp)
  · rename_i hcond
    push_neg at hcond
    have hn : normpath (forceSlash p) = n := by
      exact Except.ok.inj h
    have hq : startsWithSlash (forceSlash p) = true := by
      simp only [forceSlash]
      split
      · assumption
      · simp [startsWithSlash]
    have hqne : forceSlash p ≠ [] := by
      intro hq0
      rw [hq0] at hq
      simp [startsWithSlash] at hq
    have hdd : cDD n = false := by
      rw [← hn]
      simpa using hcond.1
    have hpre : startsWithSlash n = true := by
      rw [← hn]
      simpa using hcond.2
    refine ⟨?_, hdd, hpre⟩
    have hkval : initialSlashes (forceSlash p) = 1 ∨ initialSlashes (forceSlash p) = 2 := by
      cases hfp : forceSlash p with
      | nil => exact absurd hfp hqne
      | cons c t =>
        have : c = '/' := by
          rw [hfp] at hq
          simpa [startsWithSlash] using hq
        subst this
        simp only [initialSlashes]
        rw [if_pos (by simp [startsWithSlash])]
        split <;> simp
    set k := initialSlashes (forceSlash p) with hkdef
    set nc := processComps k (splitSlash (forceSlash p)) with hncdef
    have hno : n = List.replicate k '/' ++ joinSlash nc := by
      rw [← hn]
      simp only [normpath, if_neg hqne, ← hkdef, ← hncdef]
      split
      · rename_i ho
        exfalso
        have hpre2 := hpre
        rw [← hn] at hpre2
        simp only [normpath, if_neg hqne, ← hkdef, ← hncdef, if_pos ho] at hpre2
        simp [startsWithSlash] at hpre2
      · rfl
    have hgood : ∀ c ∈ nc, goodComp c := by
      rw [hncdef]
      exact foldl_pstep_good k (splitSlash (forceSlash p))
        (mem_splitSlash_no_slash (forceSlash p)) [] (by simp)
    have hjdd : cDD (joinSlash nc) = false := by
      by_contra hj
      have hj' : cDD (joinSlash nc) = true := by
        cases hcase : cDD (joinSlash nc)
        · exact absurd hcase hj
        · rfl
      have hddn : cDD n = true := by
        rw [hno]
        exact cDD_append_right _ _ hj'
      rw [hdd] at hddn
      exact Bool.false_ne_true hddn
    exact ⟨k, nc, hkval, hno, fun c hc =>
      ⟨hgood c hc, not_cDD_of_mem_joinSlash nc hjdd c hc⟩⟩

/-- Idempotence of `_normalize_path` on its successful outputs. -/
theorem normalize_path_idem (p n : Str) (h : normalize_path p = .ok n) :
    normalize_path n = .ok n := by
  obtain ⟨hnf, hdd, hpre⟩ := normalize_path_shape p n h
  have hforce : forceSlash n = n := by
    simp [forceSlash, hpre]
  simp [normalize_path, hforce, normpath_of_NF n hnf hdd, hdd, hpre]

/-- Any input whose normalized form still contains `..` as a substring — in
particular any parent-reference segment — is rejected by `_normalize_path`. -/
theorem normalize_path_rejects_cdd (p : Str)
    (h : cDD (normpath (forceSlash p)) = true) :
    normalize_path p = .error .invalidPath := by
  simp [normalize_path, h]

/-- No successful normalization returns a path containing a `..`
parent-reference segment. -/
theorem normalize_path_no_dotdot_seg (p n : Str) (h : normalize_path p = .ok n) :
    dotdotSeg n = false := by
  obtain ⟨_, hdd, _⟩ := normalize_path_shape p n h
  cases hseg : dotdotSeg n
  · rfl
  · exfalso
    have : cDD n = true := by
      apply cDD_of_dotdot_mem_splitSlash
      simpa [dotdotSeg] using hseg
    rw [hdd] at this
    exact Bool.false_ne_true this

-- ==========================================================================
-- Data model (metadata catalog rows and the physical filesystem)
-- ==========================================================================

/-- A row of the `users` table. -/
theorem rank_ge_three_iff (l : Str) :
    PermissionLevel.rank l ≥ 3 ↔ l = PermissionLevel.FULL := by
  unfold PermissionLevel.rank
  split
  · rename_i h; subst h; decide
  · split
    · rename_i h; subst h; decide
    · split
      · rename_i h; simp [h]
      · rename_i h; simp [h]

-- ==========================================================================
-- Permission engine (permissions.py, class PermissionManager)
-- ==========================================================================

/-- Look up a `files` row by id (`SELECT ... FROM files WHERE id = %s`,
`fetchone`). -/
theorem isPrefixOf_append_self (a b : List Str) : a.isPrefixOf (a ++ b) = true := by
  rw [List.isPrefixOf_iff_prefix]
  exact List.prefix_append a b

theorem validate_ok_valid (s l : Str) (h : PermissionLevel.validate s = .ok l) :
    l = PermissionLevel.READ ∨ l = PermissionLevel.WRITE ∨ l = PermissionLevel.FULL := by
  simp only [PermissionLevel.validate] at h
  split at h
  · rename_i hv
    cases h
    exact hv
  · exact absurd h (by simp)

theorem validate_full_eq :
    PermissionLevel.validate PermissionLevel.FULL = .ok PermissionLevel.FULL := rfl

theorem validate_write_eq :
    PermissionLevel.validate PermissionLevel.WRITE = .ok PermissionLevel.WRITE := rfl

theorem validate_read_eq :
    PermissionLevel.validate PermissionLevel.READ = .ok PermissionLevel.READ := rfl

theorem rank_valid_pos (l : Str)
    (h : l = PermissionLevel.READ ∨ l = PermissionLevel.WRITE ∨ l = PermissionLevel.FULL) :
    1 ≤ PermissionLevel.rank l := by
  rcases h with h | h | h <;> subst h <;> decide

/-- The FULL gate evaluates to success exactly on an effective permission of
`full`, and to a 403 otherwise. -/
theorem checkGate_full_eq (st : State) (uid fid : Nat) (groups : List Str) :
    checkGate st uid fid PermissionLevel.FULL groups =
      (if get_effective_permission st uid fid groups = some PermissionLevel.FULL
        then .ok () else .error .forbidden) := by
  unfold checkGate check_permission
  rw [validate_full_eq]
  cases heff : get_effective_permission st uid fid groups with
  | none => simp
  | some eff =>
    by_cases he : eff = PermissionLevel.FULL
    · subst he
      simp
    · have hr : ¬ PermissionLevel.rank eff ≥ PermissionLevel.rank PermissionLevel.FULL := by
        intro hge
        exact he ((rank_ge_three_iff eff).mp (by simpa [PermissionLevel.rank] using hge))
      simp only [decide_eq_true_eq]
      rw [if_neg (by simpa using he)]
      simp [hr]

/-- A level string stored by a reachable grant: one of the three validated
levels. -/
theorem sqlDescKey_eq_rank (l : Str) (h : validLevel l) :
    sqlDescKey l = PermissionLevel.rank l := by
  rcases h with h | h | h <;> subst h <;> decide

theorem orderDescLimit1_top (rows : List Grant)
    (hv : ∀ g ∈ rows, validLevel g.permissionLevel) (m : Grant)
    (hm : validLevel m.permissionLevel) :
    ∃ g, List.foldl
        (fun acc g =>
          match acc with
          | none => some g
          | some m =>
            if sqlDescKey g.permissionLevel > sqlDescKey m.permissionLevel then some g
            else acc)
        (some m) rows = some g ∧
      (g = m ∨ g ∈ rows) ∧ validLevel g.permissionLevel ∧
      PermissionLevel.rank m.permissionLevel ≤ PermissionLevel.rank g.permissionLevel ∧
      ∀ h ∈ rows, PermissionLevel.rank h.permissionLevel ≤ PermissionLevel.rank g.permissionLevel := by
  induction rows generalizing m with
  | nil => exact ⟨m, rfl, Or.inl rfl, hm, le_refl _, by simp⟩
  | cons r rs ih =>
    have hr := hv r (List.mem_cons_self r _)
    have hv' : ∀ g ∈ rs, validLevel g.permissionLevel :=
      fun g hg => hv g (List.mem_cons_of_mem r hg)
    simp only [List.foldl_cons]
    by_cases hgt : sqlDescKey r.permissionLevel > sqlDescKey m.permissionLevel
    · rw [if_pos hgt]
      obtain ⟨g, hfold, hmem, hgv, hle, hall⟩ := ih hv' r hr
      refine ⟨g, hfold, ?_, hgv, ?_, ?_⟩
      · rcases hmem with hmem | hmem
        · exact Or.inr (hmem ▸ List.mem_cons_self r _)
        · exact Or.inr (List.mem_cons_of_mem r hmem)
      · rw [sqlDescKey_eq_rank r.permissionLevel hr, sqlDescKey_eq_rank m.permissionLevel hm] at hgt
        omega
      · intro h hh
        rcases List.mem_cons.mp hh with hh | hh
        · exact hh ▸ hle
        · exact hall h hh
    · rw [if_neg hgt]
      obtain ⟨g, hfold, hmem, hgv, hle, hall⟩ := ih hv' m hm
      refine ⟨g, hfold, ?_, hgv, hle, ?_⟩
      · rcases hmem with hmem | hmem
        · exact Or.inl hmem
        · exact Or.inr (List.mem_cons_of_mem r hmem)
      · intro h hh
        rcases List.mem_cons.mp hh with hh | hh
        · subst hh
          rw [sqlDescKey_eq_rank h.permissionLevel hr, sqlDescKey_eq_rank m.permissionLevel hm] at hgt
          omega
        · exact hall h hh

theorem orderDescLimit1_spec (rows : List Grant)
    (hv : ∀ g ∈ rows, validLevel g.permissionLevel) (hne : rows ≠ []) :
    ∃ g, orderDescLimit1 rows = some g ∧ g ∈ rows ∧ validLevel g.permissionLevel ∧
      ∀ h ∈ rows, PermissionLevel.rank h.permissionLevel ≤ PermissionLevel.rank g.permissionLevel := by
  cases rows with
  | nil => exact absurd rfl hne
  | cons r rs =>
    have hr := hv r (List.mem_cons_self r _)
    have hv' : ∀ g ∈ rs, validLevel g.permissionLevel :=
      fun g hg => hv g (List.mem_cons_of_mem r hg)
    obtain ⟨g, hfold, hmem, hgv, hle, hall⟩ := orderDescLimit1_top rs hv' r hr
    refine ⟨g, ?_, ?_, hgv, ?_⟩
    · simpa [orderDescLimit1] using hfold
    · rcases hmem with hmem | hmem
      · exact hmem ▸ List.mem_cons_self r _
      · exact List.mem_cons_of_mem r hmem
    · intro h hh
      rcases List.mem_cons.mp hh with hh | hh
      · exact hh ▸ hle
      · exact hall h hh

theorem orderDescLimit1_nil : orderDescLimit1 [] = none := rfl

theorem orderDescLimit1_mem (rows : List Grant) (g : Grant)
    (h : orderDescLimit1 rows = some g) : g ∈ rows := by
  have key : ∀ (rs : List Grant) (acc : Option Grant) (g : Grant),
      List.foldl
        (fun acc g =>
          match acc with
          | none => some g
          | some m =>
            if sqlDescKey g.permissionLevel > sqlDescKey m.permissionLevel then some g
            else acc)
        acc rs = some g → acc = some g ∨ g ∈ rs := by
    intro rs
    induction rs with
    | nil => intro acc g h; exact Or.inl h
    | cons r t ih =>
      intro acc g h
      simp only [List.foldl_cons] at h
      rcases ih _ g h with hacc | hmem
      · cases acc with
        | none =>
          simp at hacc
          exact Or.inr (hacc ▸ List.mem_cons_self r _)
        | some m =>
          simp only at hacc
          split at hacc
          · cases hacc
            exact Or.inr (List.mem_cons_self r _)
          · exact Or.inl hacc
      · exact Or.inr (List.mem_cons_of_mem r hmem)
  rcases key rows none g h with hacc | hmem
  · exact absurd hacc (by simp)
  · exact hmem

-- ==========================================================================
-- Claim C1
-- ==========================================================================

/-- C1: for every owner username and every logical path accepted by
normalization, if `_get_absolute_path` returns a path without error, then
that path's fully resolved form (symlinks followed, via the arbitrary
resolver `resolveFS`) lies inside the owner's subdirectory
`<storage_root>/<username>`; no successful resolution yields a path outside
the owner's subdirectory. -/
theorem c1_resolve_containment (resolveFS : List Str → List Str) (uname rel : Str)
    (ap : List Str) (h : get_absolute_path_resolved resolveFS uname rel = .ok ap) :
    (resolveFS (userRootSegs uname)).isPrefixOf (resolveFS ap) = true := by
  simp only [get_absolute_path_resolved] at h
  cases hn : normalize_path rel with
  | error e => rw [hn] at h; exact absurd h (by simp)
  | ok np =>
    rw [hn] at h
    simp only at h
    split at h
    · rename_i hpre
      cases h
      exact hpre
    · exact absurd h (by simp)

/-- Witness for C1 at a concrete resolver and path. -/
theorem c1_resolve_containment_witness :
    ((fun p : List Str => p) (userRootSegs (toStr "alice"))).isPrefixOf
      ((fun p : List Str => p) (userRootSegs (toStr "alice") ++ [toStr "docs"])) = true :=
  c1_resolve_containment (fun p => p) (toStr "alice") (toStr "/docs")
    (userRootSegs (toStr "alice") ++ [toStr "docs"]) rfl

-- ==========================================================================
-- Claim C2
-- ==========================================================================

/-- C2: `get_effective_permission` follows strict precedence with no
aggregation across tiers. If the requester owns the file the result is
`full`; otherwise a direct user grant, when present, decides the result by
itself (group grants ignored); otherwise matching group grants yield the
highest-rank matching level; otherwise `None`. States are well-formed in
that grant levels are validated (`share_file` validates every written
level). -/
theorem c2_effective_permission_precedence (st : State) (uid fid : Nat)
    (groups : List Str) (f : FileRec) (hwf : grantsWF st)
    (hf : lookupFile st fid = some f) :
    (f.ownerId = uid →
      get_effective_permission st uid fid groups = some PermissionLevel.FULL) ∧
    (f.ownerId ≠ uid → ∀ g, directRows st fid uid = [g] →
      get_effective_permission st uid fid groups = some g.permissionLevel) ∧
    (f.ownerId ≠ uid → directRows st fid uid = [] → groupRows st fid groups ≠ [] →
      ∃ g, g ∈ groupRows st fid groups ∧
        get_effective_permission st uid fid groups = some g.permissionLevel ∧
        ∀ h ∈ groupRows st fid groups,
          PermissionLevel.rank h.permissionLevel ≤ PermissionLevel.rank g.permissionLevel) ∧
    (f.ownerId ≠ uid → directRows st fid uid = [] → groupRows st fid groups = [] →
      get_effective_permission st uid fid groups = none) := by
  refine ⟨?_, ?_, ?_, ?_⟩
  · intro hown
    simp [get_effective_permission, hf, hown]
  · intro hown g hdir
    simp only [get_effective_permission, hf, if_neg hown]
    rw [hdir]
    simp [orderDescLimit1]
  · intro hown hdir hgrp
    have hv : ∀ g ∈ groupRows st fid groups, validLevel g.permissionLevel := by
      intro g hg
      exact hwf g (List.mem_of_mem_filter hg)
    obtain ⟨g, htop, hmem, hgv, hall⟩ := orderDescLimit1_spec _ hv hgrp
    have hgne : groups ≠ [] := by
      intro hge
      rcases List.mem_filter.mp hmem with ⟨hmemp, hcond⟩
      subst hge
      revert hcond
      cases g.sharedWithGroup <;> simp
    refine ⟨g, hmem, ?_, hall⟩
    simp only [get_effective_permission, hf, if_neg hown, hdir, orderDescLimit1_nil, htop]
    simp [hgne]
  · intro hown hdir hgrp
    simp only [get_effective_permission, hf, if_neg hown, hdir, hgrp, orderDescLimit1_nil]
    simp

/-- Concrete state for the C2 witness: alice (1) owns file 10; bob (2) has a
direct read grant on it. -/
theorem c2_effective_permission_precedence_witness :
    get_effective_permission W2st 1 10 [] = some PermissionLevel.FULL ∧
    get_effective_permission W2st 2 10 [toStr "g"] = some (toStr "read") := by
  have hwf : grantsWF W2st := by
    intro g hg
    simp only [W2st, List.mem_singleton] at hg
    subst hg
    exact Or.inl rfl
  exact ⟨(c2_effective_permission_precedence W2st 1 10 []
      ⟨10, 1, toStr "a.txt", toStr "/a.txt", toStr "/", false, 5, none⟩
      hwf rfl).1 rfl,
    (c2_effective_permission_precedence W2st 2 10 [toStr "g"]
      ⟨10, 1, toStr "a.txt", toStr "/a.txt", toStr "/", false, 5, none⟩
      hwf rfl).2.1 (by decide) ⟨1, 10, 1, some 2, none, toStr "read"⟩ rfl⟩

-- ==========================================================================
-- Claim C10
-- ==========================================================================

/-- C10: `PermissionLevel.rank` is total on strings — every input outside
the three levels gets rank 0, strictly below `rank(READ) = 1` — so an
unrecognized or absent effective level can never satisfy a validated
required level in `check_permission`; `rank` is a total function (it never
raises), while `validate` is the only level operation rejecting bad input. -/
theorem c10_rank_total :
    (∀ s : Str, s ≠ PermissionLevel.READ → s ≠ PermissionLevel.WRITE →
      s ≠ PermissionLevel.FULL → PermissionLevel.rank s = 0) ∧
    PermissionLevel.rank PermissionLevel.READ = 1 ∧
    (∀ s : Str, s ≠ PermissionLevel.READ → s ≠ PermissionLevel.WRITE →
      s ≠ PermissionLevel.FULL →
      PermissionLevel.rank s < PermissionLevel.rank PermissionLevel.READ) ∧
    (∀ s : Str, ¬ validLevel (strLower s) →
      PermissionLevel.validate s = .error .invalidLevel) ∧
    (∀ (st : State) (uid fid : Nat) (groups : List Str) (required l : Str),
      PermissionLevel.validate required = .ok l →
      (get_effective_permission st uid fid groups = none ∨
        ∃ e, get_effective_permission st uid fid groups = some e ∧ ¬ validLevel e) →
      check_permission st uid fid required groups = .ok false) := by
  have hrank0 : ∀ s : Str, s ≠ PermissionLevel.READ → s ≠ PermissionLevel.WRITE →
      s ≠ PermissionLevel.FULL → PermissionLevel.rank s = 0 := by
    intro s h1 h2 h3
    simp [PermissionLevel.rank, h1, h2, h3]
  refine ⟨hrank0, rfl, ?_, ?_, ?_⟩
  · intro s h1 h2 h3
    rw [hrank0 s h1 h2 h3]
    decide
  · intro s hbad
    simp only [PermissionLevel.validate]
    rw [if_neg ?_]
    intro hv
    exact hbad hv
  · intro st uid fid groups required l hreq heff
    simp only [check_permission, hreq]
    rcases heff with heff | ⟨e, heff, hbad⟩
    · rw [heff]
    · rw [heff]
      have he0 : PermissionLevel.rank e = 0 := by
        apply hrank0
        · intro h; exact hbad (Or.inl h)
        · intro h; exact hbad (Or.inr (Or.inl h))
        · intro h; exact hbad (Or.inr (Or.inr h))
      have hl1 : 1 ≤ PermissionLevel.rank l := rank_valid_pos l (validate_ok_valid required l hreq)
      simp only [he0]
      have : ¬ (0 ≥ PermissionLevel.rank l) := by omega
      simp [this]

/-- Concrete state for the C10 witness: file 5 is owned by 9 and carries a
grant whose stored level is the invalid string `admin`. -/
theorem c10_rank_total_witness :
    PermissionLevel.rank (toStr "admin") = 0 ∧
    check_permission W10st 5 5 (toStr "read") [] = .ok false :=
  ⟨c10_rank_total.1 (toStr "admin") (by decide) (by decide) (by decide),
    c10_rank_total.2.2.2.2 W10st 5 5 [] (toStr "read") PermissionLevel.READ
      (by rfl) (Or.inr ⟨toStr "admin", rfl, by rintro (h | h | h) <;> exact absurd h (by decide)⟩)⟩

-- ==========================================================================
-- Claim C8
-- ==========================================================================

/-- C8: path normalization is idempotent — re-normalizing any successful
output returns it unchanged — and no input normalizing to something with a
parent-reference is ever returned: a successful result never contains a
`..` segment, and any input whose normalized form still contains `..`
(the code's substring test, which subsumes the segment test) is rejected
with `InvalidPath`. -/
theorem c8_normalize_idempotent_rejects_dotdot :
    (∀ p n : Str, normalize_path p = .ok n → normalize_path n = .ok n) ∧
    (∀ p n : Str, normalize_path p = .ok n → dotdotSeg n = false) ∧
    (∀ p : Str, cDD (normpath (forceSlash p)) = true →
      normalize_path p = .error .invalidPath) :=
  ⟨normalize_path_idem, normalize_path_no_dotdot_seg, normalize_path_rejects_cdd⟩

/-- Witness for C8 at concrete paths: `/a//../b/.` normalizes to `/b`,
which re-normalizes to itself with no `..` segment, while `/a..b` (whose
normalized form contains `..`) is rejected. -/
theorem c8_normalize_idempotent_rejects_dotdot_witness :
    normalize_path (toStr "/b") = .ok (toStr "/b") ∧
    dotdotSeg (toStr "/b") = false ∧
    normalize_path (toStr "/a..b") = .error .invalidPath :=
  ⟨c8_normalize_idempotent_rejects_dotdot.1 (toStr "/a//../b/.") (toStr "/b") rfl,
    c8_normalize_idempotent_rejects_dotdot.2.1 (toStr "/a//../b/.") (toStr "/b") rfl,
    c8_normalize_idempotent_rejects_dotdot.2.2 (toStr "/a..b") rfl⟩

-- ==========================================================================
-- Claim C3
-- ==========================================================================

/-- On an already-normalized path, `_get_absolute_path` ensures the user
root and succeeds with the composed physical path. -/
theorem get_absolute_path_normalized (fs : Fsys) (uname : Str) (raw np : Str)
    (h : normalize_path raw = .ok np) :
    get_absolute_path fs uname np = (ensureUserRoot uname fs, .ok (physPath uname np)) := by
  simp only [get_absolute_path, normalize_path_idem raw np h]
  rw [if_pos ?_]
  simp only [physPath]
  exact isPrefixOf_append_self _ _

/-- C3: a delete succeeds only when the requester's effective permission on
the resolved File Record is exactly `full`; an insufficient permission
fails with 403 and any failure leaves both stores untouched; a success
removes the File Record and, by the cascade, every Grant referencing its
file id. -/
theorem c3_delete_full_only_and_cascades (st : State) (rawPath : Str) (uid : Nat)
    (uname : Str) (groups : List Str) (st' : State) (r : Except Err Bool)
    (h : delete_file st rawPath uid uname groups = (st', r)) :
    (∀ e, r = .error e → st' = st) ∧
    (∀ b, r = .ok b → ∃ np fi owner, normalize_path rawPath = .ok np ∧
      resolveRecord st np uname = some (fi, owner) ∧
      get_effective_permission st uid fi.id groups = some PermissionLevel.FULL ∧
      st'.files = st.files.filter (fun f => !(f.id == fi.id)) ∧
      st'.perms = st.perms.filter (fun g => !(g.fileId == fi.id))) ∧
    (∀ np fi owner, normalize_path rawPath = .ok np →
      resolveRecord st np uname = some (fi, owner) →
      get_effective_permission st uid fi.id groups ≠ some PermissionLevel.FULL →
      r = .error .forbidden ∧ st' = st) := by
  simp only [delete_file] at h
  cases hnorm : normalize_path rawPath with
  | error e0 =>
    rw [hnorm] at h
    dsimp only at h
    obtain ⟨hst, hr⟩ := Prod.mk.injEq .. ▸ h
    refine ⟨fun e he => hst.symm, ?_, ?_⟩
    · intro b hb
      rw [← hr] at hb
      exact absurd hb (by simp)
    · intro np fi owner hn hres2 heff2
      simp at hn
  | ok np =>
    rw [hnorm] at h
    dsimp only at h
    cases hres : resolveRecord st np uname with
    | none =>
      rw [hres] at h
      dsimp only at h
      obtain ⟨hst, hr⟩ := Prod.mk.injEq .. ▸ h
      refine ⟨fun e he => hst.symm, ?_, ?_⟩
      · intro b hb
        rw [← hr] at hb
        exact absurd hb (by simp)
      · intro np2 fi owner hn hres2 heff2
        have hnp : np2 = np := (Except.ok.inj hn).symm
        subst hnp
        rw [hres] at hres2
        exact absurd hres2 (by simp)
    | some fo =>
      obtain ⟨fi, owner⟩ := fo
      rw [hres] at h
      dsimp only at h
      rw [checkGate_full_eq] at h
      by_cases heff : get_effective_permission st uid fi.id groups = some PermissionLevel.FULL
      · rw [if_pos heff] at h
        dsimp only at h
        rw [get_absolute_path_normalized st.fsys owner.username rawPath np hnorm] at h
        dsimp only [catalogDeleteFileCascade] at h
        obtain ⟨hst, hr⟩ := Prod.mk.injEq .. ▸ h
        refine ⟨?_, ?_, ?_⟩
        · intro e he
          rw [← hr] at he
          exact absurd he (by simp)
        · intro b hb
          exact ⟨np, fi, owner, rfl, hres, heff, by rw [← hst], by rw [← hst]⟩
        · intro np2 fi2 owner2 hn hres2 heff2
          have hnp : np2 = np := (Except.ok.inj hn).symm
          subst hnp
          rw [hres] at hres2
          obtain ⟨hfi, hown⟩ := Prod.mk.injEq .. ▸ (Option.some.inj hres2)
          rw [hfi] at heff
          exact absurd heff heff2
      · rw [if_neg heff] at h
        dsimp only at h
        obtain ⟨hst, hr⟩ := Prod.mk.injEq .. ▸ h
        refine ⟨fun e he => hst.symm, ?_, ?_⟩
        · intro b hb
          rw [← hr] at hb
          exact absurd hb (by simp)
        · intro np2 fi2 owner2 hn hres2 heff2
          exact ⟨hr.symm, hst.symm⟩

/-- Concrete state for the C3 witness: alice (1) owns `/f` (file id 7); bob
(2) holds only a `write` grant on it. -/
theorem c3_delete_full_only_and_cascades_witness :
    (delete_file W3st (toStr "/f") 2 (toStr "bob") []).2 = .error .forbidden ∧
    (delete_file W3st (toStr "/f") 2 (toStr "bob") []).1 = W3st :=
  (c3_delete_full_only_and_cascades W3st (toStr "/f") 2 (toStr "bob") [] _ _ rfl).2.2
    (toStr "/f") ⟨7, 1, toStr "f", toStr "/f", toStr "/", false, 3, none⟩ ⟨1, toStr "alice"⟩
    rfl rfl (by decide)

-- ==========================================================================
-- Claim C4
-- ==========================================================================

/-- Claim-side reading of "the acting principal holds a FULL grant on the
file": some Grant at level `full` applies to the principal, either directly
or through one of the principal's groups (a Grant targets a user or a
group, §3 of the spec). -/
theorem c4_share_group_full_counterexample :
    holdsFullGrant C4st 10 2 [toStr "eng"] = true ∧
    share_file C4st 10 2 (some (toStr "carol")) none (toStr "read") =
      (C4st, .error .forbidden) := by
  constructor
  · decide
  · rfl

/-- C4 as amended: for a non-owner acting principal, the share passes the
authorization gate iff the first direct user grant for (file, actor) exists
at level exactly `full`; group-held FULL grants do not authorize. On denial
the state is unchanged; on success the Grant for the exact target is
upserted at the validated level. -/
theorem c4_share_requires_direct_full (st : State) (fid actor : Nat)
    (withUser withGroup : Option Str) (level lvl : Str) (st' : State)
    (r : Except Err Nat)
    (h : share_file st fid actor withUser withGroup level = (st', r))
    (hlvl : PermissionLevel.validate level = .ok lvl)
    (hone : (withUser.isSome ∧ withGroup = none) ∨ (withUser = none ∧ withGroup.isSome))
    (f : FileRec) (hf : lookupFile st fid = some f) (hown : f.ownerId ≠ actor) :
    (hasDirectFullB st fid actor = false → r = .error .forbidden ∧ st' = st) ∧
    (hasDirectFullB st fid actor = true →
      (∀ uname u, withUser = some uname → userByName st uname = some u →
        ∃ gid, r = .ok gid ∧ ∃ g ∈ st'.perms, g.fileId = fid ∧
          g.sharedWithUserId = some u.id ∧ g.permissionLevel = lvl) ∧
      (∀ gname, withUser = none → withGroup = some gname →
        ∃ gid, r = .ok gid ∧ ∃ g ∈ st'.perms, g.fileId = fid ∧
          g.sharedWithGroup = some gname ∧ g.permissionLevel = lvl)) := by
  simp only [share_file] at h
  rw [hlvl] at h
  dsimp only at h
  have hone1 : ¬ (withUser = none ∧ withGroup = none) := by
    rcases hone with ⟨h1, h2⟩ | ⟨h1, h2⟩ <;> rintro ⟨ha, hb⟩ <;> simp_all
  have hone2 : ¬ (withUser ≠ none ∧ withGroup ≠ none) := by
    rcases hone with ⟨h1, h2⟩ | ⟨h1, h2⟩ <;> rintro ⟨ha, hb⟩ <;> simp_all
  rw [if_neg hone1, if_neg hone2, hf] at h
  dsimp only at h
  have hbeq : (f.ownerId == actor) = false := by
    simpa using hown
  rw [hbeq] at h
  simp only [Bool.false_eq_true, if_false] at h
  have hfd0 : List.find? (fun g => g.fileId == fid && g.sharedWithUserId == some actor) st.perms =
      firstDirectGrant st fid actor := rfl
  rw [hfd0] at h
  constructor
  · intro hnofull
    unfold hasDirectFullB at hnofull
    cases hfd : firstDirectGrant st fid actor with
    | none =>
      rw [hfd] at h
      simp only [Bool.not_false, if_true] at h
      obtain ⟨hst, hr⟩ := Prod.mk.injEq .. ▸ h
      exact ⟨hr.symm, hst.symm⟩
    | some g =>
      rw [hfd] at h hnofull
      dsimp only at h hnofull
      rw [hnofull] at h
      simp only [Bool.not_false, if_true] at h
      obtain ⟨hst, hr⟩ := Prod.mk.injEq .. ▸ h
      exact ⟨hr.symm, hst.symm⟩
  · intro hfull
    unfold hasDirectFullB at hfull
    cases hfd : firstDirectGrant st fid actor with
    | none =>
      rw [hfd] at hfull
      simp at hfull
    | some g =>
      rw [hfd] at h hfull
      dsimp only at h hfull
      rw [hfull] at h
      simp only [Bool.not_true, Bool.false_eq_true, if_false] at h
      constructor
      · intro uname u huser huu
        subst huser
        dsimp only at h
        rw [huu] at h
        dsimp only at h
        cases hex : List.find? (fun g => g.fileId == fid && g.sharedWithUserId == some u.id) st.perms with
        | some ex =>
          rw [hex] at h
          dsimp only at h
          obtain ⟨hst, hr⟩ := Prod.mk.injEq .. ▸ h
          refine ⟨ex.id, hr.symm, ?_⟩
          have hexmem : ex ∈ st.perms := List.mem_of_find?_eq_some hex
          have hexp := List.find?_some hex
          simp only [Bool.and_eq_true, beq_iff_eq] at hexp
          refine ⟨{ ex with permissionLevel := lvl }, ?_, hexp.1, hexp.2, rfl⟩
          rw [← hst]
          dsimp only
          have himg := List.mem_map_of_mem
            (fun g => if g.id = ex.id then { g with permissionLevel := lvl } else g) hexmem
          simpa using himg
        | none =>
          rw [hex] at h
          dsimp only at h
          obtain ⟨hst, hr⟩ := Prod.mk.injEq .. ▸ h
          refine ⟨st.nextPermId, hr.symm, ?_⟩
          refine ⟨⟨st.nextPermId, fid, actor, some u.id, none, lvl⟩, ?_, rfl, rfl, rfl⟩
          rw [← hst]
          simp
      · intro gname huser hgrp
        subst huser
        subst hgrp
        dsimp only at h
        cases hex : List.find? (fun g => g.fileId == fid && g.sharedWithGroup == some gname) st.perms with
        | some ex =>
          rw [hex] at h
          dsimp only at h
          obtain ⟨hst, hr⟩ := Prod.mk.injEq .. ▸ h
          refine ⟨ex.id, hr.symm, ?_⟩
          have hexmem : ex ∈ st.perms := List.mem_of_find?_eq_some hex
          have hexp := List.find?_some hex
          simp only [Bool.and_eq_true, beq_iff_eq] at hexp
          refine ⟨{ ex with permissionLevel := lvl }, ?_, hexp.1, hexp.2, rfl⟩
          rw [← hst]
          dsimp only
          have himg := List.mem_map_of_mem
            (fun g => if g.id = ex.id then { g with permissionLevel := lvl } else g) hexmem
          simpa using himg
        | none =>
          rw [hex] at h
          dsimp only at h
          obtain ⟨hst, hr⟩ := Prod.mk.injEq .. ▸ h
          refine ⟨st.nextPermId, hr.symm, ?_⟩
          refine ⟨⟨st.nextPermId, fid, actor, none, some gname, lvl⟩, ?_, rfl, rfl, rfl⟩
          rw [← hst]
          simp

/-- Concrete state for the amended C4 witness: alice (1) owns file 10; bob
(2) holds a direct `full` grant; carol (3) exists as a target. -/
theorem c4_share_requires_direct_full_witness :
    ∃ gid, (share_file C4wst 10 2 (some (toStr "carol")) none (toStr "read")).2 = .ok gid ∧
      ∃ g ∈ (share_file C4wst 10 2 (some (toStr "carol")) none (toStr "read")).1.perms,
        g.fileId = 10 ∧ g.sharedWithUserId = some 3 ∧ g.permissionLevel = toStr "read" :=
  ((c4_share_requires_direct_full C4wst 10 2 (some (toStr "carol")) none (toStr "read")
      (toStr "read") _ _ rfl rfl (Or.inl ⟨rfl, rfl⟩)
      ⟨10, 1, toStr "doc", toStr "/doc", toStr "/", false, 4, none⟩ rfl (by decide)).2
    (by decide)).1 (toStr "carol") ⟨3, toStr "carol"⟩ rfl rfl

-- ==========================================================================
-- Claim C9
-- ==========================================================================

theorem mem_foldl_ins_of_mem (x : List Str) (d : List (List Str)) (qs : List (List Str))
    (hx : x ∈ d) : x ∈ qs.foldl (fun d q => if q ∈ d then d else d ++ [q]) d := by
  induction qs generalizing d with
  | nil => exact hx
  | cons q t ih =>
    simp only [List.foldl_cons]
    apply ih
    split
    · exact hx
    · exact List.mem_append_left _ hx

theorem mem_foldl_ins_inserted (q : List Str) (d : List (List Str)) (qs : List (List Str))
    (hq : q ∈ qs) : q ∈ qs.foldl (fun d q => if q ∈ d then d else d ++ [q]) d := by
  induction qs generalizing d with
  | nil => simp at hq
  | cons a t ih =>
    simp only [List.foldl_cons]
    rcases List.mem_cons.mp hq with hq | hq
    · subst hq
      apply mem_foldl_ins_of_mem
      split
      · assumption
      · simp
    · exact ih _ hq

theorem self_mem_prefixesNE (p : List Str) (hp : p ≠ []) : p ∈ prefixesNE p := by
  simp only [prefixesNE, List.mem_map]
  refine ⟨p.length - 1, ?_, ?_⟩
  · simp only [List.mem_range]
    cases p with
    | nil => exact absurd rfl hp
    | cons a t => simp
  · have : p.length - 1 + 1 = p.length := by
      cases p with
      | nil => exact absurd rfl hp
      | cons a t => simp
    rw [this, List.take_length]

theorem ensureDirChain_self_exists (fs : Fsys) (p : List Str) (hp : p ≠ []) :
    fsExists (ensureDirChain fs p) p = true := by
  simp only [fsExists, ensureDirChain, Bool.or_eq_true]
  left
  exact List.elem_eq_true_of_mem
    (mem_foldl_ins_inserted p fs.dirs (prefixesNE p) (self_mem_prefixesNE p hp))

theorem ensureUserRoot_root_exists (fs : Fsys) (uname : Str) :
    fsExists (ensureUserRoot uname fs) (userRootSegs uname) = true :=
  ensureDirChain_self_exists fs (userRootSegs uname) (by simp [userRootSegs, storageRootSegs])

theorem dropWhile_append_all {α : Type} (p : α → Bool) (a b : List α)
    (ha : ∀ x ∈ a, p x = true) : (a ++ b).dropWhile p = b.dropWhile p := by
  induction a with
  | nil => simp
  | cons x t ih =>
    simp only [List.cons_append, List.dropWhile_cons, ha x (List.mem_cons_self x _)]
    exact ih (fun y hy => ha y (List.mem_cons_of_mem x hy))

theorem rsplitParent_append_last (a c : Str) (hc : '/' ∉ c) :
    rsplitParent (a ++ '/' :: c) = a := by
  have hcontains : (a ++ '/' :: c).contains '/' := by
    exact List.elem_eq_true_of_mem (by simp)
  simp only [rsplitParent, hcontains, if_true]
  rw [List.reverse_append]
  simp only [List.reverse_cons]
  rw [List.append_assoc]
  rw [dropWhile_append_all _ c.reverse _ ?hall]
  case hall =>
    intro x hx
    have : x ∈ c := List.mem_reverse.mp hx
    simp only [Bool.not_eq_true']
    simp only [beq_eq_false_iff_ne, ne_eq]
    intro hxe
    exact hc (hxe ▸ this)
  simp only [List.singleton_append, List.dropWhile_cons]
  simp

theorem npSegs_of_NF (k : Nat) (cs : List Str) (hk : k = 1 ∨ k = 2)
    (hcs : ∀ c ∈ cs, goodComp c) :
    npSegs (List.replicate k '/' ++ joinSlash cs) = cs := by
  simp only [npSegs]
  cases hcn : cs with
  | nil =>
    subst hcn
    rcases hk with hk | hk <;> subst hk <;> decide
  | cons c t =>
    rw [← hcn]
    have hclean : cleanComps cs := fun c hc => ⟨(hcs c hc).1, (hcs c hc).2.1⟩
    rw [splitSlash_replicate_append, splitSlash_joinSlash cs (by simp [hcn]) hclean]
    rw [List.filter_append]
    have h1 : (List.replicate k ([] : Str)).filter (fun c => !c.isEmpty) = [] := by
      rcases hk with hk | hk <;> subst hk <;> decide
    have h2 : cs.filter (fun c => !c.isEmpty) = cs := by
      apply List.filter_eq_self.mpr
      intro c hc
      have := (hcs c hc).1
      simpa [List.isEmpty_iff] using this
    rw [h1, h2, List.nil_append]

theorem countSlash_joinSlash (cs : List Str) (hcs : ∀ c ∈ cs, goodComp c) :
    countSlash (joinSlash cs) = cs.length - 1 := by
  induction cs with
  | nil => decide
  | cons c t ih =>
    have hc := hcs c (List.mem_cons_self c _)
    have hcount0 : countSlash c = 0 := by
      simp only [countSlash, List.count_eq_zero]
      intro hmem
      exact hc.2.1 hmem
    cases t with
    | nil => simpa [joinSlash] using hcount0
    | cons d u =>
      have ih2 := ih (fun x hx => hcs x (List.mem_cons_of_mem c hx))
      simp only [joinSlash] at ih2 ⊢
      simp only [countSlash] at hcount0 ih2 ⊢
      simp only [List.count_append, List.count_cons, hcount0]
      rw [ih2]
      simp only [List.length_cons]
      have hone : (('/' : Char) == '/') = true := by decide
      simp only [hone, if_true]
      omega

theorem countSlash_of_NF (k : Nat) (cs : List Str) (hk : k = 1 ∨ k = 2)
    (hcs : ∀ c ∈ cs, goodComp c) :
    countSlash (List.replicate k '/' ++ joinSlash cs) = k + (cs.length - 1) := by
  simp only [countSlash, List.count_append]
  have h1 : List.count '/' (List.replicate k '/') = k := by
    simp [List.count_replicate]
  rw [h1]
  have h2 := countSlash_joinSlash cs hcs
  simp only [countSlash] at h2
  rw [h2]

/-- On a normalized path with at least one segment, the code's parent rule
(`"/"` iff the slash count is one) agrees with the spec's parent rule
(`"/"` iff the path has exactly one segment, else drop the last segment). -/
theorem parentOf_eq_claim (np : Str) (hnf : isNF np) (hne : npSegs np ≠ []) :
    parentOf np = (if (npSegs np).length = 1 then toStr "/" else rsplitParent np) := by
  obtain ⟨k, cs, hk, hshape, hcs⟩ := hnf
  have hgood : ∀ c ∈ cs, goodComp c := fun c hc => (hcs c hc).1
  have hsegs : npSegs np = cs := hshape ▸ npSegs_of_NF k cs hk hgood
  have hcount : countSlash np = k + (cs.length - 1) := hshape ▸ countSlash_of_NF k cs hk hgood
  rw [hsegs] at hne ⊢
  cases hcl : cs with
  | nil => exact absurd hcl hne
  | cons c t =>
    cases t with
    | nil =>
      -- one segment
      subst hcl
      simp only [List.length_cons, List.length_nil, if_pos rfl]
      rcases hk with hk | hk
      · subst hk
        simp only [parentOf, hcount]
        norm_num
      · subst hk
        simp only [parentOf, hcount]
        rw [if_neg (by norm_num)]
        subst hshape
        have hns : '/' ∉ c := (hgood c (by simp)).2.1
        have : (List.replicate 2 '/' : Str) ++ joinSlash [c] = ['/'] ++ '/' :: c := by
          simp [joinSlash, List.replicate]
        rw [this, rsplitParent_append_last ['/'] c hns]
        rfl
    | cons d u =>
      subst hcl
      have hval : countSlash np ≠ 1 := by
        rw [hcount]
        simp only [List.length_cons]
        rcases hk with hk | hk <;> subst hk <;> omega
      rw [if_neg (by simp only [List.length_cons]; omega)]
      simp only [parentOf]
      rw [if_neg hval]

/-- C9: `create_folder` fails `AlreadyExists` with no catalog change when an
object already sits at the target physical path; otherwise (and when no
catalog record collides on the modelled unique key) it creates the
directory and inserts exactly one File Record with `is_folder = true`, size
0, and parent `/` for a one-segment path, else the path with its last
segment removed. -/
theorem c9_create_folder_contract (st : State) (rawPath : Str) (ownerId : Nat)
    (uname : Str) (np : Str) (hn : normalize_path rawPath = .ok np) :
    (fsExists (ensureUserRoot uname st.fsys) (physPath uname np) = true →
      create_folder st rawPath ownerId uname =
        ({ st with fsys := ensureUserRoot uname st.fsys }, .error .alreadyExists)) ∧
    (fsExists (ensureUserRoot uname st.fsys) (physPath uname np) = false →
      (st.files.any (fun f => f.ownerId == ownerId && f.path == np)) = false →
      create_folder st rawPath ownerId uname =
        ({ st with
            fsys := ensureDirChain (ensureUserRoot uname st.fsys) (physPath uname np),
            files := st.files ++
              [⟨st.nextFileId, ownerId, (physPath uname np).getLastD [], np,
                parentOf np, true, 0, none⟩],
            nextFileId := st.nextFileId + 1 }, .ok
          ⟨st.nextFileId, ownerId, (physPath uname np).getLastD [], np,
            parentOf np, true, 0, none⟩) ∧
      parentOf np =
        (if (npSegs np).length = 1 then toStr "/" else rsplitParent np)) := by
  constructor
  · intro hex
    simp only [create_folder, hn]
    rw [get_absolute_path_normalized st.fsys uname rawPath np hn]
    dsimp only
    rw [hex]
    rfl
  · intro hex hno
    have heq : create_folder st rawPath ownerId uname =
        ({ st with
            fsys := ensureDirChain (ensureUserRoot uname st.fsys) (physPath uname np),
            files := st.files ++
              [⟨st.nextFileId, ownerId, (physPath uname np).getLastD [], np,
                parentOf np, true, 0, none⟩],
            nextFileId := st.nextFileId + 1 }, .ok
          ⟨st.nextFileId, ownerId, (physPath uname np).getLastD [], np,
            parentOf np, true, 0, none⟩) := by
      simp only [create_folder, hn]
      rw [get_absolute_path_normalized st.fsys uname rawPath np hn]
      dsimp only
      rw [hex]
      simp only [Bool.false_eq_true, if_false]
      simp only [catalogInsertFile, hno, Bool.false_eq_true, if_false]
    refine ⟨heq, ?_⟩
    have hnf := (normalize_path_shape rawPath np hn).1
    apply parentOf_eq_claim np hnf
    intro hsegs
    have : fsExists (ensureUserRoot uname st.fsys) (physPath uname np) = true := by
      have : physPath uname np = userRootSegs uname := by
        simp [physPath, hsegs]
      rw [this]
      exact ensureUserRoot_root_exists st.fsys uname
    rw [hex] at this
    exact Bool.false_ne_true this

/-- Concrete state for the C9 witness: eve (5) with an empty vault. -/
theorem c9_create_folder_contract_witness :
    (create_folder W9st (toStr "/proj") 5 (toStr "eve")).2 =
      .ok ⟨1, 5, toStr "proj", toStr "/proj", toStr "/", true, 0, none⟩ := by
  have h := (c9_create_folder_contract W9st (toStr "/proj") 5 (toStr "eve")
    (toStr "/proj") rfl).2 (by decide) rfl
  rw [h.1]
  rfl

-- ==========================================================================
-- Claim C5
-- ==========================================================================

theorem strLeB_total (a b : Str) : strLeB a b = true ∨ strLeB b a = true := by
  induction a generalizing b with
  | nil => left; rfl
  | cons x as ih =>
    cases b with
    | nil => right; rfl
    | cons y bs =>
      rcases lt_trichotomy x y with hxy | hxy | hxy
      · left; simp [strLeB, hxy]
      · subst hxy
        rcases ih bs with h | h
        · left; simp [strLeB, h]
        · right; simp [strLeB, h]
      · right; simp [strLeB, hxy]

theorem strLeB_trans (a b c : Str) (hab : strLeB a b = true) (hbc : strLeB b c = true) :
    strLeB a c = true := by
  induction a generalizing b c with
  | nil => rfl
  | cons x as ih =>
    cases b with
    | nil => simp [strLeB] at hab
    | cons y bs =>
      cases c with
      | nil => simp [strLeB] at hbc
      | cons z cs =>
        simp only [strLeB] at hab hbc ⊢
        by_cases hxy : x < y
        · by_cases hyz : y < z
          · simp [lt_trans hxy hyz]
          · rw [if_neg hyz] at hbc
            by_cases hyz2 : y = z
            · subst hyz2
              simp [hxy]
            · rw [if_neg hyz2] at hbc
              simp at hbc
        · rw [if_neg hxy] at hab
          by_cases hxy2 : x = y
          · subst hxy2
            rw [if_pos rfl] at hab
            by_cases hxz : x < z
            · simp [hxz]
            · rw [if_neg hxz] at hbc ⊢
              by_cases hxz2 : x = z
              · rw [if_pos hxz2] at hbc ⊢
                exact ih bs cs hab hbc
              · rw [if_neg hxz2] at hbc
                simp at hbc
          · rw [if_neg hxy2] at hab
            simp at hab

instance rowLeTotal : IsTotal ListingRow (fun a b => rowLe a b = true) := by
  constructor
  intro a b
  simp only [rowLe]
  by_cases hk : folderKey a = folderKey b
  · rw [if_pos hk, if_pos hk.symm]
    exact strLeB_total a.filename b.filename
  · rw [if_neg hk, if_neg (fun h => hk h.symm)]
    rcases Nat.lt_or_ge (folderKey a) (folderKey b) with h | h
    · left; simpa using h
    · right
      simp only [decide_eq_true_eq]
      omega

instance rowLeTrans : IsTrans ListingRow (fun a b => rowLe a b = true) := by
  constructor
  intro a b c hab hbc
  simp only [rowLe] at hab hbc ⊢
  by_cases hab2 : folderKey a = folderKey b <;> by_cases hbc2 : folderKey b = folderKey c
  · rw [if_pos hab2] at hab
    rw [if_pos hbc2] at hbc
    rw [if_pos (hab2.trans hbc2)]
    exact strLeB_trans _ _ _ hab hbc
  · rw [if_neg hbc2] at hbc
    rw [if_neg (fun h => hbc2 (hab2 ▸ h))]
    simpa [hab2] using hbc
  · rw [if_neg hab2] at hab
    rw [if_neg (fun h => hab2 (hbc2 ▸ h))]
    simpa [hbc2] using hab
  · rw [if_neg hab2] at hab
    rw [if_neg hbc2] at hbc
    simp only [decide_eq_true_eq] at hab hbc
    rw [if_neg (by omega)]
    simp only [decide_eq_true_eq]
    omega

instance rowIdLeTotal : IsTotal ListingRow (fun a b => rowIdLe a b = true) := by
  constructor
  intro a b
  simp only [rowIdLe, decide_eq_true_eq]
  omega

instance rowIdLeTrans : IsTrans ListingRow (fun a b => rowIdLe a b = true) := by
  constructor
  intro a b c hab hbc
  simp only [rowIdLe, decide_eq_true_eq] at hab hbc ⊢
  omega

theorem ownedFn_some (st : State) (np : Str) (uid : Nat) (f : FileRec)
    (row : ListingRow) (h : ownedFn st np uid f = some row) :
    f.ownerId = uid ∧ row.fileId = f.id ∧ row.sharedPermission = none := by
  simp only [ownedFn] at h
  split at h
  · rename_i hcond
    simp only [Bool.and_eq_true, beq_iff_eq] at hcond
    cases hu : userById st f.ownerId with
    | none => rw [hu] at h; simp at h
    | some u =>
      rw [hu] at h
      simp only at h
      cases h
      exact ⟨hcond.2, rfl, rfl⟩
  · simp at h

theorem sharedFn_some (st : State) (np : Str) (uid : Nat) (groups : List Str)
    (f : FileRec) (row : ListingRow) (h : sharedFn st np uid groups f = some row) :
    f.ownerId ≠ uid ∧ row.fileId = f.id ∧
      ∃ g, firstMatchingGrant st f.id uid groups = some g ∧
        row.sharedPermission = some g.permissionLevel := by
  simp only [sharedFn] at h
  split at h
  · rename_i hcond
    simp only [Bool.and_eq_true, beq_iff_eq, Bool.not_eq_true', beq_eq_false_iff_ne] at hcond
    cases hu : userById st f.ownerId with
    | none => rw [hu] at h; simp at h
    | some u =>
      cases hg : firstMatchingGrant st f.id uid groups with
      | none => rw [hu, hg] at h; simp at h
      | some g =>
        rw [hu, hg] at h
        simp only at h
        cases h
        exact ⟨hcond.2, rfl, g, rfl, rfl⟩
  · simp at h

theorem mem_ownedRows (st : State) (np : Str) (uid : Nat) (row : ListingRow)
    (h : row ∈ ownedRows st np uid) :
    ∃ f ∈ st.files, ownedFn st np uid f = some row := by
  unfold ownedRows at h
  have hperm := List.perm_insertionSort (fun a b => rowLe a b = true)
    (st.files.filterMap (ownedFn st np uid))
  exact List.mem_filterMap.mp (hperm.mem_iff.mp h)

theorem mem_sharedRows (st : State) (np : Str) (uid : Nat) (groups : List Str)
    (row : ListingRow) (h : row ∈ sharedRows st np uid groups) :
    ∃ f ∈ st.files, sharedFn st np uid groups f = some row := by
  unfold sharedRows at h
  have hperm := List.perm_insertionSort (fun a b => rowIdLe a b = true)
    (st.files.filterMap (sharedFn st np uid groups))
  exact List.mem_filterMap.mp (hperm.mem_iff.mp h)

theorem pairwise_rows_of_wf (st : State) (np : Str) (uid : Nat) (groups : List Str)
    (hwf : st.files.Pairwise (fun f g => f.id ≠ g.id)) :
    (ownedRows st np uid ++ sharedRows st np uid groups).Pairwise
      (fun a b : ListingRow => a.fileId ≠ b.fileId) := by
  have hsymm : Symmetric (fun a b : ListingRow => a.fileId ≠ b.fileId) :=
    fun a b h => fun he => h he.symm
  have hidsymm : Symmetric (fun f g : FileRec => f.id ≠ g.id) :=
    fun a b h => fun he => h he.symm
  apply List.pairwise_append.mpr
  refine ⟨?_, ?_, ?_⟩
  · unfold ownedRows
    apply (List.Perm.pairwise_iff (fun hxy => hsymm hxy)
      (List.perm_insertionSort (fun a b => rowLe a b = true) _)).mpr
    apply List.pairwise_filterMap.mpr
    apply List.Pairwise.imp ?_ hwf
    intro f g hfg x hx y hy
    have hxs := ownedFn_some st np uid f x hx
    have hys := ownedFn_some st np uid g y hy
    rw [hxs.2.1, hys.2.1]
    exact hfg
  · unfold sharedRows
    apply (List.Perm.pairwise_iff (fun hxy => hsymm hxy)
      (List.perm_insertionSort (fun a b => rowIdLe a b = true) _)).mpr
    apply List.pairwise_filterMap.mpr
    apply List.Pairwise.imp ?_ hwf
    intro f g hfg x hx y hy
    have hxs := sharedFn_some st np uid groups f x hx
    have hys := sharedFn_some st np uid groups g y hy
    rw [hxs.2.1, hys.2.1]
    exact hfg
  · intro a ha b hb
    obtain ⟨fa, hfa, hfna⟩ := mem_ownedRows st np uid a ha
    obtain ⟨fb, hfb, hfnb⟩ := mem_sharedRows st np uid groups b hb
    have has := ownedFn_some st np uid fa a hfna
    have hbs := sharedFn_some st np uid groups fb b hfnb
    have hfne : fa ≠ fb := by
      intro he
      rw [he] at has
      exact hbs.1 has.1
    have hidne : fa.id ≠ fb.id := List.Pairwise.forall hidsymm hwf hfa hfb hfne
    rw [has.2.1, hbs.2.1]
    exact hidne

/-- C5 as amended: a successful listing is the owned block followed by the
shared block; the owned block is ordered folders-first then by filename and
carries no annotation; the shared block is ordered by file id (not
folders-first) and each of its rows is annotated with the level of the
first matching grant (not necessarily the highest-rank one); rows are
deduplicated by file id (one row per file, given distinct record ids). -/
theorem c5_list_directory_shape (st : State) (rawPath : Str) (uid : Nat)
    (uname : Str) (groups : List Str) (st' : State) (rows : List ListingRow)
    (h : list_directory st rawPath uid uname groups = (st', .ok rows))
    (hwf : st.files.Pairwise (fun f g => f.id ≠ g.id)) :
    ∃ np, normalize_path rawPath = .ok np ∧
      rows = ownedRows st np uid ++ sharedRows st np uid groups ∧
      List.Sorted (fun a b => rowLe a b = true) (ownedRows st np uid) ∧
      List.Sorted (fun a b => rowIdLe a b = true) (sharedRows st np uid groups) ∧
      rows.Pairwise (fun a b => a.fileId ≠ b.fileId) ∧
      (∀ row ∈ ownedRows st np uid, row.sharedPermission = none) ∧
      (∀ row ∈ sharedRows st np uid groups, ∃ g ∈ st.perms,
        g.fileId = row.fileId ∧ grantMatches uid groups g = true ∧
        row.sharedPermission = some g.permissionLevel) := by
  simp only [list_directory] at h
  cases hnorm : normalize_path rawPath with
  | error e0 =>
    rw [hnorm] at h
    dsimp only at h
    exact absurd (Prod.mk.injEq .. ▸ h).2 (by simp)
  | ok np =>
    rw [hnorm] at h
    dsimp only at h
    rw [get_absolute_path_normalized st.fsys uname rawPath np hnorm] at h
    dsimp only at h
    split at h
    · exact absurd (Prod.mk.injEq .. ▸ h).2 (by simp)
    · have hrows : rows = ownedRows st np uid ++ sharedRows st np uid groups := by
        have := (Prod.mk.injEq .. ▸ h).2
        exact (Except.ok.inj this).symm
      refine ⟨np, rfl, hrows, List.sorted_insertionSort _ _, List.sorted_insertionSort _ _,
        hrows ▸ pairwise_rows_of_wf st np uid groups hwf, ?_, ?_⟩
      · intro row hrow
        obtain ⟨f, hf, hfn⟩ := mem_ownedRows st np uid row hrow
        exact (ownedFn_some st np uid f row hfn).2.2
      · intro row hrow
        obtain ⟨f, hf, hfn⟩ := mem_sharedRows st np uid groups row hrow
        obtain ⟨hown, hfid, g, hg, hlvl⟩ := sharedFn_some st np uid groups f row hfn
        have hgp := List.find?_some hg
        simp only [Bool.and_eq_true, beq_iff_eq] at hgp
        exact ⟨g, List.mem_of_find?_eq_some hg, by rw [hfid, hgp.1], hgp.2, hlvl⟩

/-- State refuting C5 as stated: alice (1) owns folder `/s` (shared with
bob so he can list it) containing file `a.txt` (id 21) and folder `zdir`
(id 22), both shared with bob (2); `a.txt` additionally carries a higher
`write` grant for bob's group `g` listed after the direct `read` grant. -/
theorem c5_list_ordering_counterexample :
    (list_directory C5st (toStr "/s") 2 (toStr "bob") [toStr "g"]).2 =
      .ok [⟨21, toStr "a.txt", false, toStr "alice", some (toStr "read")⟩,
           ⟨22, toStr "zdir", true, toStr "alice", some (toStr "read")⟩] ∧
    (⟨3, 21, 1, none, some (toStr "g"), toStr "write"⟩ : Grant) ∈ C5st.perms ∧
    grantMatches 2 [toStr "g"] ⟨3, 21, 1, none, some (toStr "g"), toStr "write"⟩ = true ∧
    PermissionLevel.rank (toStr "read") < PermissionLevel.rank (toStr "write") := by
  exact ⟨rfl, by decide, by decide, by decide⟩

/-- Witness for the amended C5 at the same concrete state: the returned
rows are pairwise distinct by file id. -/
theorem c5_list_directory_shape_witness :
    List.Pairwise (fun a b : ListingRow => a.fileId ≠ b.fileId)
      [(⟨21, toStr "a.txt", false, toStr "alice", some (toStr "read")⟩ : ListingRow),
       ⟨22, toStr "zdir", true, toStr "alice", some (toStr "read")⟩] := by
  obtain ⟨np, hnp, hrows, hs1, hs2, hpw, hrest⟩ :=
    c5_list_directory_shape C5st (toStr "/s") 2 (toStr "bob") [toStr "g"]
      (list_directory C5st (toStr "/s") 2 (toStr "bob") [toStr "g"]).1
      [⟨21, toStr "a.txt", false, toStr "alice", some (toStr "read")⟩,
       ⟨22, toStr "zdir", true, toStr "alice", some (toStr "read")⟩]
      rfl (by decide)
  exact hpw

-- ==========================================================================
-- Claim C6
-- ==========================================================================

/-- Record ids stay below the id counter (SERIAL). -/
theorem catalogInsertFile_wf (st : State) (o : Nat) (fn p pp : Str) (isf : Bool)
    (sz : Nat) (mime : Option Str) (h : StateWF st) :
    StateWF (catalogInsertFile st o fn p pp isf sz mime).1 := by
  unfold catalogInsertFile
  split
  · exact h
  · rename_i hany
    rw [Bool.not_eq_true] at hany
    obtain ⟨hbnd, hdis, huni⟩ := h
    refine ⟨?_, ?_, ?_⟩
    · intro f hf
      simp only at hf ⊢
      rcases List.mem_append.mp hf with hf | hf
      · exact Nat.lt_succ_of_lt (hbnd f hf)
      · have hfe : f = ⟨st.nextFileId, o, fn, p, pp, isf, sz, mime⟩ := by simpa using hf
        subst hfe
        exact Nat.lt_succ_self _
    · simp only [idsDistinct]
      apply List.pairwise_append.mpr
      refine ⟨hdis, by simp, ?_⟩
      intro a ha b hbm
      have hbe : b = ⟨st.nextFileId, o, fn, p, pp, isf, sz, mime⟩ := by simpa using hbm
      subst hbe
      have := hbnd a ha
      simp only
      omega
    · simp only [ownerPathUnique]
      apply List.pairwise_append.mpr
      refine ⟨huni, by simp, ?_⟩
      intro a ha b hbm
      have hbe : b = ⟨st.nextFileId, o, fn, p, pp, isf, sz, mime⟩ := by simpa using hbm
      subst hbe
      rintro ⟨ho, hp⟩
      have hfalse := List.any_eq_false.mp hany a ha
      simp only at ho hp
      rw [ho, hp] at hfalse
      simp at hfalse

theorem catalogUpdate_core_wf (st : State) (fid : Nat) (nf f : FileRec)
    (hl : lookupFile st fid = some f)
    (hid : nf.id = f.id) (howner : nf.ownerId = f.ownerId)
    (hcol : (st.files.any (fun g =>
      !(g.id == fid) && g.ownerId == f.ownerId && g.path == nf.path)) = false)
    (h : StateWF st) :
    StateWF { st with files := st.files.map (fun g => if g.id = fid then nf else g) } := by
  obtain ⟨hbnd, hdis, huni⟩ := h
  have hfid : f.id = fid := by
    have := List.find?_some hl
    simpa using this
  have hfmem : f ∈ st.files := List.mem_of_find?_eq_some hl
  have hupd_id : ∀ g : FileRec, (if g.id = fid then nf else g).id = g.id := by
    intro g
    split
    · rename_i hg
      rw [hid, hfid, hg]
    · rfl
  refine ⟨?_, ?_, ?_⟩
  · intro x hx
    simp only at hx ⊢
    obtain ⟨g, hg, hge⟩ := List.mem_map.mp hx
    rw [← hge]
    have : (if g.id = fid then nf else g).id = g.id := hupd_id g
    rw [this]
    exact hbnd g hg
  · simp only [idsDistinct]
    apply List.pairwise_map.mpr
    apply List.Pairwise.imp ?_ hdis
    intro a b hab
    rw [hupd_id a, hupd_id b]
    exact hab
  · simp only [ownerPathUnique]
    apply List.pairwise_map.mpr
    apply List.Pairwise.imp_of_mem ?_ (hdis.and huni)
    intro a b ha hbm hr
    obtain ⟨hidne, hop⟩ := hr
    by_cases haf : a.id = fid <;> by_cases hbf : b.id = fid
    · exact absurd (haf.trans hbf.symm) hidne
    · rw [if_pos haf, if_neg hbf]
      rintro ⟨ho, hp⟩
      have hfalse := List.any_eq_false.mp hcol b hbm
      rw [howner] at ho
      rw [← ho, ← hp] at hfalse
      simp [hbf] at hfalse
    · rw [if_neg haf, if_pos hbf]
      rintro ⟨ho, hp⟩
      have hfalse := List.any_eq_false.mp hcol a ha
      rw [howner] at ho
      rw [ho, hp] at hfalse
      simp [haf] at hfalse
    · rw [if_neg haf, if_neg hbf]
      exact hop

theorem catalogUpdateRename_wf (st : State) (fid : Nat) (nm np : Str)
    (h : StateWF st) : StateWF (catalogUpdateRename st fid nm np).1 := by
  unfold catalogUpdateRename
  cases hl : lookupFile st fid with
  | none => exact h
  | some f =>
    dsimp only
    split
    · exact h
    · rename_i hcol
      rw [Bool.not_eq_true] at hcol
      exact catalogUpdate_core_wf st fid { f with filename := nm, path := np } f hl rfl rfl
        hcol h

theorem catalogUpdateMove_wf (st : State) (fid : Nat) (np npar : Str)
    (h : StateWF st) : StateWF (catalogUpdateMove st fid np npar).1 := by
  unfold catalogUpdateMove
  cases hl : lookupFile st fid with
  | none => exact h
  | some f =>
    dsimp only
    split
    · exact h
    · rename_i hcol
      rw [Bool.not_eq_true] at hcol
      exact catalogUpdate_core_wf st fid { f with path := np, parentPath := npar } f hl rfl rfl
        hcol h

theorem catalogDeleteFileCascade_wf (st : State) (fid : Nat) (h : StateWF st) :
    StateWF (catalogDeleteFileCascade st fid) := by
  obtain ⟨hbnd, hdis, huni⟩ := h
  refine ⟨?_, ?_, ?_⟩
  · intro f hf
    simp only [catalogDeleteFileCascade] at hf ⊢
    exact hbnd f (List.mem_of_mem_filter hf)
  · exact hdis.sublist (List.filter_sublist _)
  · exact huni.sublist (List.filter_sublist _)

theorem create_folder_wf (st : State) (rawPath : Str) (ownerId : Nat) (uname : Str)
    (h : StateWF st) : StateWF (create_folder st rawPath ownerId uname).1 := by
  unfold create_folder
  split
  · exact h
  · split
    · exact h
    · split
      · exact h
      · exact catalogInsertFile_wf _ _ _ _ _ _ _ _ h

theorem upload_file_wf (st : State) (filename : Str) (size : Nat) (rawParent : Str)
    (ownerId : Nat) (uname : Str) (h : StateWF st) :
    StateWF (upload_file st filename size rawParent ownerId uname).1 := by
  unfold upload_file
  dsimp only
  (repeat' split) <;> first
    | exact h
    | exact catalogInsertFile_wf _ _ _ _ _ _ _ _ h

theorem copy_file_wf (st : State) (rawSrc rawDestParent : Str) (uid : Nat)
    (uname : Str) (groups : List Str) (h : StateWF st) :
    StateWF (copy_file st rawSrc rawDestParent uid uname groups).1 := by
  unfold copy_file
  dsimp only
  (repeat' split) <;> first
    | exact h
    | exact catalogInsertFile_wf _ _ _ _ _ _ _ _ h

theorem rename_file_wf (st : State) (rawOld newName : Str) (uid : Nat)
    (uname : Str) (groups : List Str) (h : StateWF st) :
    StateWF (rename_file st rawOld newName uid uname groups).1 := by
  unfold rename_file
  dsimp only
  (repeat' split) <;> first
    | exact h
    | exact catalogUpdateRename_wf _ _ _ _ h

theorem move_file_wf (st : State) (rawSrc rawDestParent : Str) (uid : Nat)
    (uname : Str) (groups : List Str) (h : StateWF st) :
    StateWF (move_file st rawSrc rawDestParent uid uname groups).1 := by
  unfold move_file
  dsimp only
  (repeat' split) <;> first
    | exact h
    | exact catalogUpdateMove_wf _ _ _ _ h

theorem delete_file_wf (st : State) (rawPath : Str) (uid : Nat) (uname : Str)
    (groups : List Str) (h : StateWF st) :
    StateWF (delete_file st rawPath uid uname groups).1 := by
  unfold delete_file
  dsimp only
  (repeat' split) <;> first
    | exact h
    | exact catalogDeleteFileCascade_wf _ _ h

theorem share_file_wf (st : State) (fid sharedBy : Nat)
    (withUser withGroup : Option Str) (level : Str) (h : StateWF st) :
    StateWF (share_file st fid sharedBy withUser withGroup level).1 := by
  unfold share_file
  dsimp only
  (repeat' split) <;> exact h

/-- Initial state for the C6 reachability exhibit: alice (1) and bob (2)
with empty catalogs. -/
theorem c6_owner_path_unique_invariant :
    (∀ st st', StateWF st → Step st st' → StateWF st') ∧
    (∀ st, StateWF st → ownerPathUnique st) ∧
    (∃ st0 st1 st2 : State, StateWF st0 ∧ Step st0 st1 ∧ Step st1 st2 ∧
      ∃ f ∈ st2.files, ∃ g ∈ st2.files, f.ownerId ≠ g.ownerId ∧ f.path = g.path) := by
  refine ⟨?_, fun st h => h.2.2, ?_⟩
  · intro st st' h hstep
    cases hstep with
    | createFolder rawPath ownerId uname => exact create_folder_wf st rawPath ownerId uname h
    | upload filename size rawParent ownerId uname =>
        exact upload_file_wf st filename size rawParent ownerId uname h
    | copy rawSrc rawDestParent uid uname groups =>
        exact copy_file_wf st rawSrc rawDestParent uid uname groups h
    | rename rawOld newName uid uname groups =>
        exact rename_file_wf st rawOld newName uid uname groups h
    | move rawSrc rawDestParent uid uname groups =>
        exact move_file_wf st rawSrc rawDestParent uid uname groups h
    | delete rawPath uid uname groups => exact delete_file_wf st rawPath uid uname groups h
    | share fid sharedBy withUser withGroup level =>
        exact share_file_wf st fid sharedBy withUser withGroup level h
  · refine ⟨W6st, (create_folder W6st (toStr "/docs") 1 (toStr "alice")).1,
      (create_folder (create_folder W6st (toStr "/docs") 1 (toStr "alice")).1
        (toStr "/docs") 2 (toStr "bob")).1,
      ⟨by intro f hf; simp [W6st] at hf, by simp [idsDistinct, W6st],
        by simp [ownerPathUnique, W6st]⟩,
      Step.createFolder W6st (toStr "/docs") 1 (toStr "alice"),
      Step.createFolder _ (toStr "/docs") 2 (toStr "bob"), ?_⟩
    decide

/-- Witness for C6: well-formedness survives a concrete create-folder step
from a concrete well-formed state. -/
theorem c6_owner_path_unique_invariant_witness :
    StateWF (create_folder W6st (toStr "/docs") 1 (toStr "alice")).1 :=
  c6_owner_path_unique_invariant.1 W6st _
    ⟨by intro f hf; simp [W6st] at hf, by simp [idsDistinct, W6st],
      by simp [ownerPathUnique, W6st]⟩
    (Step.createFolder W6st (toStr "/docs") 1 (toStr "alice"))

-- ==========================================================================
-- Claim C7
-- ==========================================================================

/-- Iterated creation of per-user root directory chains: the only
filesystem activity `_user_root` performs. -/
theorem earlyFrame_rfl (st : State) : EarlyFrame st st :=
  ⟨⟨rfl, rfl, rfl, rfl, rfl⟩, [], rfl⟩

theorem earlyFrame_fs (st : State) (X : Fsys) (us : List Str)
    (h : X = ensureList us st.fsys) : EarlyFrame st { st with fsys := X } :=
  ⟨⟨rfl, rfl, rfl, rfl, rfl⟩, us, h⟩

theorem get_absolute_path_fst (fs : Fsys) (uname rel : Str) :
    (get_absolute_path fs uname rel).1 = fs ∨
    (get_absolute_path fs uname rel).1 = ensureUserRoot uname fs := by
  unfold get_absolute_path
  split
  · left; rfl
  · dsimp only
    split
    · right; rfl
    · right; rfl

theorem gap_fst_cases (fs0 : Fsys) (uname rel : Str) (fs1 : Fsys)
    (r : Except Err (List Str)) (heq : get_absolute_path fs0 uname rel = (fs1, r)) :
    fs1 = fs0 ∨ fs1 = ensureUserRoot uname fs0 := by
  have hfst := congrArg Prod.fst heq
  rcases get_absolute_path_fst fs0 uname rel with hc | hc <;> rw [hfst] at hc
  · exact Or.inl hc
  · exact Or.inr hc

theorem create_folder_early_frame (st : State) (rawPath : Str) (ownerId : Nat)
    (uname : Str) :
    EarlyFrame st (create_folder st rawPath ownerId uname).1 ∨
    NotEarlyOutcome (create_folder st rawPath ownerId uname).2 := by
  unfold create_folder catalogInsertFile
  split
  · exact Or.inl (earlyFrame_rfl st)
  · rename_i np hnp
    split
    · rename_i fs1 e heq
      left
      rcases gap_fst_cases st.fsys uname np fs1 _ heq with hc | hc
      · exact earlyFrame_fs st fs1 [] hc
      · exact earlyFrame_fs st fs1 [uname] hc
    · rename_i fs1 ap heq
      split
      · left
        rcases gap_fst_cases st.fsys uname np fs1 _ heq with hc | hc
        · exact earlyFrame_fs st fs1 [] hc
        · exact earlyFrame_fs st fs1 [uname] hc
      · dsimp only
        split
        · right; right; left; rfl
        · right; left; exact ⟨_, rfl⟩

theorem upload_file_early_frame (st : State) (filename : Str) (size : Nat)
    (rawParent : Str) (ownerId : Nat) (uname : Str) :
    EarlyFrame st (upload_file st filename size rawParent ownerId uname).1 ∨
    NotEarlyOutcome (upload_file st filename size rawParent ownerId uname).2 := by
  unfold upload_file catalogInsertFile
  dsimp only
  split
  · exact Or.inl (earlyFrame_rfl st)
  · rename_i parent hparent
    rcases hgap : get_absolute_path st.fsys uname (rstripSlash parent ++ '/' :: filename)
      with ⟨fs1, r⟩
    cases r with
    | error e =>
      dsimp only
      left
      rcases gap_fst_cases _ _ _ _ _ hgap with hc | hc
      · exact earlyFrame_fs st fs1 [] hc
      · exact earlyFrame_fs st fs1 [uname] hc
    | ok ap =>
      dsimp only
      split
      · left
        rcases gap_fst_cases _ _ _ _ _ hgap with hc | hc
        · exact earlyFrame_fs st fs1 [] hc
        · exact earlyFrame_fs st fs1 [uname] hc
      · split
        · right; right; left; rfl
        · right; left; exact ⟨_, rfl⟩

theorem list_directory_early_frame (st : State) (rawPath : Str) (uid : Nat)
    (uname : Str) (groups : List Str) :
    EarlyFrame st (list_directory st rawPath uid uname groups).1 ∨
    NotEarlyOutcome (list_directory st rawPath uid uname groups).2 := by
  unfold list_directory
  split
  · exact Or.inl (earlyFrame_rfl st)
  · rename_i np hnp
    split
    · rename_i fs1 e heq
      left
      rcases gap_fst_cases st.fsys uname np fs1 _ heq with hc | hc
      · exact earlyFrame_fs st fs1 [] hc
      · exact earlyFrame_fs st fs1 [uname] hc
    · rename_i fs1 ap heq
      dsimp only
      split
      · left
        rcases gap_fst_cases st.fsys uname np fs1 _ heq with hc | hc
        · exact earlyFrame_fs st fs1 [] hc
        · exact earlyFrame_fs st fs1 [uname] hc
      · right; left; exact ⟨_, rfl⟩

theorem earlyFrame_gap1 (st : State) (o : Str) (fs1 : Fsys)
    (h : fs1 = st.fsys ∨ fs1 = ensureUserRoot o st.fsys) :
    EarlyFrame st { st with fsys := fs1 } := by
  rcases h with h | h
  · exact earlyFrame_fs st fs1 [] h
  · exact earlyFrame_fs st fs1 [o] h

theorem earlyFrame_gap2 (st : State) (o1 o2 : Str) (fs1 fs2 : Fsys)
    (h1 : fs1 = st.fsys ∨ fs1 = ensureUserRoot o1 st.fsys)
    (h2 : fs2 = fs1 ∨ fs2 = ensureUserRoot o2 fs1) :
    EarlyFrame st { st with fsys := fs2 } := by
  rcases h1 with h1 | h1 <;> rcases h2 with h2 | h2
  · exact earlyFrame_fs st fs2 [] (h2.trans h1)
  · exact earlyFrame_fs st fs2 [o2] (by rw [h2, h1]; rfl)
  · exact earlyFrame_fs st fs2 [o1] (h2.trans h1)
  · exact earlyFrame_fs st fs2 [o1, o2] (by rw [h2, h1]; rfl)

theorem file_id_and_owner_mem (st : State) (p u : Str) (f : FileRec) (ow : UserRec)
    (h : file_id_and_owner st p u = some (f, ow)) : f ∈ st.files := by
  unfold file_id_and_owner at h
  obtain ⟨a, ha, hfa⟩ := List.exists_of_findSome?_eq_some h
  split at hfa
  · split at hfa
    · split at hfa
      · have h2 : a = f := congrArg Prod.fst (Option.some.inj hfa)
        exact h2 ▸ ha
      · exact absurd hfa (by simp)
    · exact absurd hfa (by simp)
  · exact absurd hfa (by simp)

theorem file_by_path_any_owner_mem (st : State) (p : Str) (f : FileRec) (ow : UserRec)
    (h : file_by_path_any_owner st p = some (f, ow)) : f ∈ st.files := by
  unfold file_by_path_any_owner at h
  obtain ⟨a, ha, hfa⟩ := List.exists_of_findSome?_eq_some h
  split at hfa
  · split at hfa
    · have h2 : a = f := congrArg Prod.fst (Option.some.inj hfa)
      exact h2 ▸ ha
    · exact absurd hfa (by simp)
  · exact absurd hfa (by simp)

theorem resolveRecord_mem (st : State) (p u : Str) (f : FileRec) (ow : UserRec)
    (h : resolveRecord st p u = some (f, ow)) : f ∈ st.files := by
  unfold resolveRecord at h
  split at h
  · rename_i r heq
    rw [Option.some.inj h] at heq
    exact file_id_and_owner_mem st p u f ow heq
  · exact file_by_path_any_owner_mem st p f ow h

theorem lookupFile_isSome_of_mem (st : State) (f : FileRec) (hm : f ∈ st.files) :
    ∃ g, lookupFile st f.id = some g := by
  unfold lookupFile
  rcases hfind : st.files.find? (fun g => decide (g.id = f.id)) with _ | g
  · exact absurd (List.find?_eq_none.mp hfind f hm) (by simp)
  · exact ⟨g, hfind⟩

theorem earlyErr_not_late {α : Type} (e : Err) (he : earlyErrSet e) :
    ¬ NotEarlyOutcome (Except.error e : Except Err α) := by
  intro hn
  rcases hn with ⟨v, hv⟩ | hv | hv
  · exact Except.noConfusion hv
  · rw [Except.error.injEq] at hv
    subst hv
    simp [earlyErrSet] at he
  · rw [Except.error.injEq] at hv
    subst hv
    simp [earlyErrSet] at he

theorem rename_file_early_frame (st : State) (rawOld newName : Str) (uid : Nat)
    (uname : Str) (groups : List Str) :
    EarlyFrame st (rename_file st rawOld newName uid uname groups).1 ∨
    NotEarlyOutcome (rename_file st rawOld newName uid uname groups).2 := by
  unfold rename_file catalogUpdateRename
  dsimp only
  split
  · exact Or.inl (earlyFrame_rfl st)
  · rename_i oldPath hold
    split
    · exact Or.inl (earlyFrame_rfl st)
    · rename_i f owner hres
      split
      · exact Or.inl (earlyFrame_rfl st)
      · rcases hg1 : get_absolute_path st.fsys owner.username oldPath with ⟨fs1, r1⟩
        cases r1 with
        | error e =>
          dsimp only
          exact Or.inl (earlyFrame_gap1 st owner.username fs1 (gap_fst_cases _ _ _ _ _ hg1))
        | ok absOld =>
          dsimp only
          split
          · exact Or.inl (earlyFrame_gap1 st owner.username fs1 (gap_fst_cases _ _ _ _ _ hg1))
          · rcases hg2 : get_absolute_path fs1 owner.username
                (parentOf oldPath ++ '/' :: newName) with ⟨fs2, r2⟩
            cases r2 with
            | error e =>
              dsimp only
              exact Or.inl (earlyFrame_gap2 st owner.username owner.username fs1 fs2
                (gap_fst_cases _ _ _ _ _ hg1) (gap_fst_cases _ _ _ _ _ hg2))
            | ok absNew =>
              dsimp only
              split
              · rename_i hnone
                obtain ⟨g, hgg⟩ := lookupFile_isSome_of_mem st f
                  (resolveRecord_mem st oldPath uname f owner hres)
                have hnone2 : lookupFile st f.id = none := hnone
                rw [hnone2] at hgg
                exact absurd hgg (by simp)
              · split
                · right; right; left; rfl
                · right; left; exact ⟨_, rfl⟩

theorem delete_file_early_frame (st : State) (rawPath : Str) (uid : Nat)
    (uname : Str) (groups : List Str) :
    EarlyFrame st (delete_file st rawPath uid uname groups).1 ∨
    NotEarlyOutcome (delete_file st rawPath uid uname groups).2 := by
  unfold delete_file
  dsimp only
  split
  · exact Or.inl (earlyFrame_rfl st)
  · rename_i path hp
    split
    · exact Or.inl (earlyFrame_rfl st)
    · rename_i f owner hres
      split
      · exact Or.inl (earlyFrame_rfl st)
      · rcases hg1 : get_absolute_path st.fsys owner.username path with ⟨fs1, r1⟩
        cases r1 with
        | error e =>
          dsimp only
          exact Or.inl (earlyFrame_gap1 st owner.username fs1 (gap_fst_cases _ _ _ _ _ hg1))
        | ok ap =>
          dsimp only
          right; left; exact ⟨_, rfl⟩

theorem move_file_early_frame (st : State) (rawSrc rawDestParent : Str) (uid : Nat)
    (uname : Str) (groups : List Str) :
    EarlyFrame st (move_file st rawSrc rawDestParent uid uname groups).1 ∨
    NotEarlyOutcome (move_file st rawSrc rawDestParent uid uname groups).2 := by
  unfold move_file catalogUpdateMove
  dsimp only
  split
  · exact Or.inl (earlyFrame_rfl st)
  · rename_i src hsrc
    split
    · exact Or.inl (earlyFrame_rfl st)
    · rename_i destParent hdest
      split
      · exact Or.inl (earlyFrame_rfl st)
      · rename_i f owner hres
        split
        · exact Or.inl (earlyFrame_rfl st)
        · rcases hg1 : get_absolute_path st.fsys owner.username src with ⟨fs1, r1⟩
          cases r1 with
          | error e =>
            dsimp only
            exact Or.inl (earlyFrame_gap1 st owner.username fs1 (gap_fst_cases _ _ _ _ _ hg1))
          | ok srcAbs =>
            dsimp only
            rcases hg2 : get_absolute_path fs1 owner.username
                (destParent ++ '/' :: srcAbs.getLastD []) with ⟨fs2, r2⟩
            cases r2 with
            | error e =>
              dsimp only
              exact Or.inl (earlyFrame_gap2 st owner.username owner.username fs1 fs2
                (gap_fst_cases _ _ _ _ _ hg1) (gap_fst_cases _ _ _ _ _ hg2))
            | ok destAbs =>
              dsimp only
              split
              · right; right; right; rfl
              · split
                · rename_i hnone
                  obtain ⟨g, hgg⟩ := lookupFile_isSome_of_mem st f
                    (resolveRecord_mem st src uname f owner hres)
                  have hnone2 : lookupFile st f.id = none := hnone
                  rw [hnone2] at hgg
                  exact absurd hgg (by simp)
                · split
                  · right; right; left; rfl
                  · right; left; exact ⟨_, rfl⟩

theorem copy_file_early_frame (st : State) (rawSrc rawDestParent : Str) (uid : Nat)
    (uname : Str) (groups : List Str) :
    EarlyFrame st (copy_file st rawSrc rawDestParent uid uname groups).1 ∨
    NotEarlyOutcome (copy_file st rawSrc rawDestParent uid uname groups).2 := by
  unfold copy_file catalogInsertFile
  dsimp only
  split
  · exact Or.inl (earlyFrame_rfl st)
  · rename_i src hsrc
    split
    · exact Or.inl (earlyFrame_rfl st)
    · rename_i destParent hdest
      split
      · exact Or.inl (earlyFrame_rfl st)
      · rename_i f owner hres
        split
        · exact Or.inl (earlyFrame_rfl st)
        · rcases hg1 : get_absolute_path st.fsys owner.username src with ⟨fs1, r1⟩
          cases r1 with
          | error e =>
            dsimp only
            exact Or.inl (earlyFrame_gap1 st owner.username fs1 (gap_fst_cases _ _ _ _ _ hg1))
          | ok srcAbs =>
            dsimp only
            rcases hg2 : get_absolute_path fs1 uname
                (destParent ++ '/' :: srcAbs.getLastD []) with ⟨fs2, r2⟩
            cases r2 with
            | error e =>
              dsimp only
              exact Or.inl (earlyFrame_gap2 st owner.username uname fs1 fs2
                (gap_fst_cases _ _ _ _ _ hg1) (gap_fst_cases _ _ _ _ _ hg2))
            | ok destAbs =>
              dsimp only
              split
              · split
                · right; right; right; rfl
                · split
                  · right; right; left; rfl
                  · right; left; exact ⟨_, rfl⟩
              · split
                · right; right; right; rfl
                · split
                  · right; right; left; rfl
                  · right; left; exact ⟨_, rfl⟩

theorem share_file_early_frame (st : State) (fid sharedBy : Nat)
    (withUser withGroup : Option Str) (level : Str) :
    EarlyFrame st (share_file st fid sharedBy withUser withGroup level).1 ∨
    NotEarlyOutcome (share_file st fid sharedBy withUser withGroup level).2 := by
  unfold share_file
  dsimp only
  repeat' split
  all_goals
    first
      | exact Or.inl (earlyFrame_rfl st)
      | right; left; exact ⟨_, rfl⟩

theorem c7_early_failure_mutates_fs_counterexample :
    (upload_file C7st (toStr "a.bin") (maxFileSize + 1) (toStr "/") 4 (toStr "dana")).2
        = .error .tooLarge ∧
    (upload_file C7st (toStr "a.bin") (maxFileSize + 1) (toStr "/") 4 (toStr "dana")).1
        ≠ C7st := by
  constructor
  · rfl
  · decide

/-- C7 (amended): for every operation, any failure from the early set
(invalid path, not found, forbidden, already exists, too large, invalid
level, bad request) — all raised before the operation's filesystem
mutation step — leaves the Metadata Catalog and both id counters exactly
as they were, and changes the physical filesystem at most by creating
per-user root directory chains (`mkdir(parents=True, exist_ok=True)` in
`_user_root`). -/
theorem c7_early_failures_frame :
    (∀ st rawPath ownerId uname st2 e,
        create_folder st rawPath ownerId uname = (st2, .error e) →
        earlyErrSet e → EarlyFrame st st2) ∧
    (∀ st filename size rawParent ownerId uname st2 e,
        upload_file st filename size rawParent ownerId uname = (st2, .error e) →
        earlyErrSet e → EarlyFrame st st2) ∧
    (∀ st rawPath uid uname groups st2 e,
        list_directory st rawPath uid uname groups = (st2, .error e) →
        earlyErrSet e → EarlyFrame st st2) ∧
    (∀ st rawOld newName uid uname groups st2 e,
        rename_file st rawOld newName uid uname groups = (st2, .error e) →
        earlyErrSet e → EarlyFrame st st2) ∧
    (∀ st rawSrc rawDestParent uid uname groups st2 e,
        move_file st rawSrc rawDestParent uid uname groups = (st2, .error e) →
        earlyErrSet e → EarlyFrame st st2) ∧
    (∀ st rawSrc rawDestParent uid uname groups st2 e,
        copy_file st rawSrc rawDestParent uid uname groups = (st2, .error e) →
        earlyErrSet e → EarlyFrame st st2) ∧
    (∀ st rawPath uid uname groups st2 e,
        delete_file st rawPath uid uname groups = (st2, .error e) →
        earlyErrSet e → EarlyFrame st st2) ∧
    (∀ st fid sharedBy withUser withGroup level st2 e,
        share_file st fid sharedBy withUser withGroup level = (st2, .error e) →
        earlyErrSet e → EarlyFrame st st2) := by
  refine ⟨?_, ?_, ?_, ?_, ?_, ?_, ?_, ?_⟩
  · intro st rawPath ownerId uname st2 e heq he
    rcases create_folder_early_frame st rawPath ownerId uname with hf | hn
    · rw [heq] at hf; exact hf
    · rw [heq] at hn; exact absurd hn (earlyErr_not_late e he)
  · intro st filename size rawParent ownerId uname st2 e heq he
    rcases upload_file_early_frame st filename size rawParent ownerId uname with hf | hn
    · rw [heq] at hf; exact hf
    · rw [heq] at hn; exact absurd hn (earlyErr_not_late e he)
  · intro st rawPath uid uname groups st2 e heq he
    rcases list_directory_early_frame st rawPath uid uname groups with hf | hn
    · rw [heq] at hf; exact hf
    · rw [heq] at hn; exact absurd hn (earlyErr_not_late e he)
  · intro st rawOld newName uid uname groups st2 e heq he
    rcases rename_file_early_frame st rawOld newName uid uname groups with hf | hn
    · rw [heq] at hf; exact hf
    · rw [heq] at hn; exact absurd hn (earlyErr_not_late e he)
  · intro st rawSrc rawDestParent uid uname groups st2 e heq he
    rcases move_file_early_frame st rawSrc rawDestParent uid uname groups with hf | hn
    · rw [heq] at hf; exact hf
    · rw [heq] at hn; exact absurd hn (earlyErr_not_late e he)
  · intro st rawSrc rawDestParent uid uname groups st2 e heq he
    rcases copy_file_early_frame st rawSrc rawDestParent uid uname groups with hf | hn
    · rw [heq] at hf; exact hf
    · rw [heq] at hn; exact absurd hn (earlyErr_not_late e he)
  · intro st rawPath uid uname groups st2 e heq he
    rcases delete_file_early_frame st rawPath uid uname groups with hf | hn
    · rw [heq] at hf; exact hf
    · rw [heq] at hn; exact absurd hn (earlyErr_not_late e he)
  · intro st fid sharedBy withUser withGroup level st2 e heq he
    rcases share_file_early_frame st fid sharedBy withUser withGroup level with hf | hn
    · rw [heq] at hf; exact hf
    · rw [heq] at hn; exact absurd hn (earlyErr_not_late e he)

/-- Witness for C7: `share_file` with neither a target user nor a target
group fails with 400 Bad Request at a concrete state, and the amended frame
holds there. -/
theorem c7_early_failures_frame_witness : EarlyFrame C7st C7st :=
  c7_early_failures_frame.2.2.2.2.2.2.2 C7st 1 1 none none (toStr "read") C7st
    .badRequest (by rfl) (Or.inr (Or.inr (Or.inr (Or.inr (Or.inr (Or.inr rfl))))))
